import Mathlib

/-!
Shallow embedding of the content resolver and listing presenter of a
static-site blog (Next.js + MDX).  The resolver (`lib/content.ts`) walks a
content tree on disk; the presenter (`DirectoryListing`) sorts the entries
client-side.  We model the filesystem as an explicit tree of named entries
in directory-listing order, file contents as lists of lines, machine
numbers as `Nat`/`Int`, and fallible operations (exceptions thrown by
`readFileSync` on a directory, or by `toISOString` on an invalid date) as
`Except`.  Calendar values are restricted to ISO `YYYY-MM-DD` strings, on
which the JavaScript `new Date(s).toISOString().split("T")[0]` round-trip
is the identity; string collation (`localeCompare`) is modelled by the
lexicographic order on strings, which has the same sign structure.
Arithmetic is exact, matching IEEE doubles on the byte counts the site
manipulates (below 2^53).
-/

namespace Site

/-- Structure `DirectoryEntry` from `lib/shared.ts` / `lib/content.ts`. -/
structure DirectoryEntry where
  name : String
  isDirectory : Bool
  extension : String
  date : String
  size : Nat
  description : String
  href : String
deriving Repr, DecidableEq

/-- Structure `PostData` from `lib/content.ts`; `content` is the body as lines. -/
structure PostData where
  title : String
  description : String
  date : String
  content : List String
  slug : String
deriving Repr, DecidableEq

/-! ### String helpers modelling the JavaScript / Node primitives -/

/-- Models `String.prototype.endsWith`. -/
def strEndsWith (s suf : String) : Bool :=
  decide (suf.data.length ≤ s.data.length) &&
    decide (s.data.drop (s.data.length - suf.data.length) = suf.data)

/-- Models `item.replace(/\.mdx?$/, "")`: strip a final `.mdx` or `.md`. -/
def stripExt (s : String) : String :=
  if strEndsWith s ".mdx" then String.mk (s.data.take (s.data.length - 4))
  else if strEndsWith s ".md" then String.mk (s.data.take (s.data.length - 3))
  else s

/-- Recognized post filename: `item.endsWith(".mdx") || item.endsWith(".md")`. -/
def postName (s : String) : Bool :=
  strEndsWith s ".mdx" || strEndsWith s ".md"

/-- Models Node's `path.extname` on a basename: the substring from the last
`.` to the end, or `""` when there is no `.` or the only `.` is the leading
character (dotfiles have no extension). -/
def extname (s : String) : String :=
  if (s.data.reverse.takeWhile (fun c => c ≠ '.')).length = s.data.reverse.length
    then ""
  else if (s.data.reverse.takeWhile (fun c => c ≠ '.')).length + 1
      = s.data.reverse.length
    then ""
  else String.mk ('.' :: (s.data.reverse.takeWhile (fun c => c ≠ '.')).reverse)

/-- Joins path segments with `/` (the model keeps paths as segment lists;
the TypeScript code joins them into strings with `path.join`). -/
def pathString (p : List String) : String :=
  String.intercalate "/" p

/-- Models `Buffer.byteLength(raw, "utf-8")` for a file stored as lines:
UTF-8 bytes of every line plus one newline separator between lines. -/
def byteLengthLines (lines : List String) : Nat :=
  (lines.map (fun l => l.data.foldl (fun n c => n + c.utf8Size) 0)).foldl (· + ·) 0
    + (lines.length - 1)

/-! ### Size formatting (`formatSize` in `lib/shared.ts`)

`toFixed(d)` on a nonnegative double picks the integer `n` with
`n / 10^d` closest to the value, ties to the larger `n`: exactly
`⌊x·10^d + 1/2⌋`.  The divisors are powers of two, so the doubles involved
are exact for counts below `2^53` and the rational computation below agrees
with the JavaScript. -/

/-- Function `formatSize` from `lib/shared.ts`. -/
def formatSize (bytes : Nat) : String :=
  if bytes = 0 then "0"
  else if bytes < 1024 then toString bytes
  else if bytes < 1024 * 1024 then
    let n := (bytes * 10 + 512) / 1024
    toString (n / 10) ++ "." ++ toString (n % 10) ++ "K"
  else if bytes < 1024 * 1024 * 1024 then
    toString ((bytes + 524288) / (1024 * 1024)) ++ "M"
  else
    toString ((bytes + 536870912) / (1024 * 1024 * 1024)) ++ "G"

/-! ### The listing presenter's sort (`DirectoryListing` components)

`[...entries].sort(cmp)` with a consistent comparator is specified by
ECMAScript to return the stable sort of the input: the unique permutation
that is sorted under the comparator and keeps tied elements in input
order.  We model it by stable insertion sort parameterized by the
comparator. -/

/-- Insert `a` before the first element not strictly smaller than it. -/
def insertCmp (cmp : DirectoryEntry → DirectoryEntry → Int)
    (a : DirectoryEntry) : List DirectoryEntry → List DirectoryEntry
  | [] => [a]
  | b :: l => if cmp a b ≤ 0 then a :: b :: l else b :: insertCmp cmp a l

/-- Stable sort by a comparator (the ECMAScript `Array.prototype.sort`
contract for a consistent comparator). -/
def sortByCmp (cmp : DirectoryEntry → DirectoryEntry → Int) :
    List DirectoryEntry → List DirectoryEntry
  | [] => []
  | a :: l => insertCmp cmp a (sortByCmp cmp l)

inductive SortColumn where
  | name | date | size | description
deriving Repr, DecidableEq

inductive SortOrder where
  | asc | desc
deriving Repr, DecidableEq

/-- Sign model of `a.localeCompare(b)`: a total order on strings. -/
def strCmpInt (a b : String) : Int :=
  if a < b then -1 else if b < a then 1 else 0

/-- The per-column comparison of the desktop `DirectoryListing`. -/
def colCmp (col : SortColumn) (a b : DirectoryEntry) : Int :=
  match col with
  | .name => strCmpInt a.name b.name
  | .date => strCmpInt a.date b.date
  | .size => (a.size : Int) - (b.size : Int)
  | .description => strCmpInt a.description b.description

/-- The comparator passed to `sort` by the desktop `DirectoryListing`:
directories first, then the selected column, sign-reversed when
descending (the partition branch returns before the sign reversal). -/
def entryCmp (col : SortColumn) (ord : SortOrder) (a b : DirectoryEntry) : Int :=
  if a.isDirectory && !b.isDirectory then -1
  else if !a.isDirectory && b.isDirectory then 1
  else match ord with
    | .asc => colCmp col a b
    | .desc => - colCmp col a b

/-- The sorted listing `sortEntries` of the desktop `DirectoryListing`. -/
def sortEntries (entries : List DirectoryEntry) (col : SortColumn)
    (ord : SortOrder) : List DirectoryEntry :=
  sortByCmp (entryCmp col ord) entries

/-- Sort columns of the mobile `DirectoryListing` variant (no size). -/
inductive SortColumnM where
  | name | date | description
deriving Repr, DecidableEq

/-- Per-column comparison of the mobile variant. -/
def colCmpM (col : SortColumnM) (a b : DirectoryEntry) : Int :=
  match col with
  | .name => strCmpInt a.name b.name
  | .date => strCmpInt a.date b.date
  | .description => strCmpInt a.description b.description

/-- Comparator of the mobile `DirectoryListing` variant. -/
def entryCmpM (col : SortColumnM) (ord : SortOrder) (a b : DirectoryEntry) : Int :=
  if a.isDirectory && !b.isDirectory then -1
  else if !a.isDirectory && b.isDirectory then 1
  else match ord with
    | .asc => colCmpM col a b
    | .desc => - colCmpM col a b

/-- Sorted listing of the mobile `DirectoryListing` variant. -/
def sortEntriesM (entries : List DirectoryEntry) (col : SortColumnM)
    (ord : SortOrder) : List DirectoryEntry :=
  sortByCmp (entryCmpM col ord) entries

/-! ### The content tree

A directory is the list of its children in `readdirSync` order; a file
stores its lines and its `stat.mtime` as an ISO calendar day (the model
works at day granularity, reading every instant as midnight UTC). -/

/-- A directory: named children in listing order. -/
inductive FsDir where
  | nil : FsDir
  | consFile (name : String) (lines : List String) (mtime : String) (rest : FsDir) : FsDir
  | consDir (name : String) (children : FsDir) (rest : FsDir) : FsDir
deriving Repr, DecidableEq

/-- What a path resolves to: a file or a directory. -/
inductive FsNode where
  | file (lines : List String) (mtime : String) : FsNode
  | dir (children : FsDir) : FsNode
deriving Repr, DecidableEq

/-- Look a name up among the children of a directory. -/
def FsDir.find : FsDir → String → Option FsNode
  | .nil, _ => none
  | .consFile n l m r, s => if n = s then some (.file l m) else r.find s
  | .consDir n c r, s => if n = s then some (.dir c) else r.find s

/-- Children of a directory as a list of named nodes. -/
def FsDir.toList : FsDir → List (String × FsNode)
  | .nil => []
  | .consFile n l m r => (n, .file l m) :: r.toList
  | .consDir n c r => (n, .dir c) :: r.toList

/-- Models `path.join` + `fs.existsSync`/`fs.statSync` lookup: resolve a
segment path against a directory.  The empty path is the directory
itself; a path through a file resolves only when the file is last. -/
def resolve : List String → FsDir → Option FsNode
  | [], d => some (.dir d)
  | s :: rest, d =>
    match d.find s with
    | some (.dir c) => resolve rest c
    | some (.file l m) => if rest.isEmpty then some (.file l m) else none
    | none => none

/-! ### Frontmatter (`gray-matter` with simple `key: value` YAML) -/

/-- In-line whitespace stripped by YAML plain scalars. -/
def isWSChar (c : Char) : Bool := c = ' ' || c = '\t' || c = '\r'

/-- Strip leading and trailing in-line whitespace. -/
def trimChars (cs : List Char) : List Char :=
  ((cs.dropWhile isWSChar).reverse.dropWhile isWSChar).reverse

/-- Strip leading and trailing in-line whitespace of a string. -/
def trimStr (s : String) : String := String.mk (trimChars s.data)

/-- One `key: value` line of the metadata block; lines without a colon
are not key/value pairs.  The value is the trimmed text after the first
colon. -/
def parseLine (l : String) : Option (String × String) :=
  if l.data.any (fun c => c = ':') then
    some (String.mk (l.data.takeWhile (fun c => c ≠ ':')),
          String.mk (trimChars ((l.data.dropWhile (fun c => c ≠ ':')).drop 1)))
  else none

/-- Models `matter(raw)` on a file stored as lines: when the first line is
`---` and a later line closes the block, the lines between parse as
key/value data and the lines after are the content; otherwise no data. -/
def matter (lines : List String) : List (String × String) × List String :=
  match lines with
  | [] => ([], lines)
  | first :: rest =>
    if first = "---" then
      match rest.dropWhile (fun l => l ≠ "---") with
      | _ :: body => ((rest.takeWhile (fun l => l ≠ "---")).filterMap parseLine, body)
      | [] => ([], lines)
    else ([], lines)

/-- JavaScript truthiness of an optional string field: `undefined` and
`""` are falsy. -/
def getTruthy (o : Option String) : Option String :=
  match o with
  | some v => if v = "" then none else some v
  | none => none

/-- Valid ISO month `01`–`12`. -/
def monthOk (m1 m2 : Char) : Bool :=
  (m1 = '0' && m2.isDigit && m2 ≠ '0') ||
    (m1 = '1' && (m2 = '0' || m2 = '1' || m2 = '2'))

/-- Valid ISO day-of-month `01`–`28` (conservative for every month). -/
def dayOk (d1 d2 : Char) : Bool :=
  (d1 = '0' && d2.isDigit && d2 ≠ '0') || (d1 = '1' && d2.isDigit) ||
    (d1 = '2' && d2.isDigit && d2 ≠ '9')

/-- Syntactically valid ISO calendar day `YYYY-MM-DD` (month 01–12, day
01–28: a sound subset of what `new Date` parses).  On these strings
`new Date(s).toISOString().split("T")[0]` is the identity; any other
frontmatter date is outside the embedding's domain. -/
def validIso (s : String) : Bool :=
  match s.data with
  | [y1, y2, y3, y4, c1, m1, m2, c2, d1, d2] =>
    (y1.isDigit && y2.isDigit && y3.isDigit && y4.isDigit) &&
    (c1 = '-' && c2 = '-') && monthOk m1 m2 && dayOk d1 d2
  | _ => false

/-! ### `readPost` / `isPost` (`lib/content.ts`) -/

/-- Parse the chosen file into `PostData` (`readPost`'s body): title
defaults to the path's basename, description to `""`; a present date goes
through the JavaScript `Date` round-trip, which throws on an invalid
value (`.error`), and defaults to `""` when absent. -/
def mkPostData (lines : List String) (p : List String) (base : String) :
    Except String PostData :=
  match getTruthy (List.lookup "date" (matter lines).1) with
  | some dd =>
    if validIso dd then
      .ok ⟨(getTruthy (List.lookup "title" (matter lines).1)).getD base,
           (getTruthy (List.lookup "description" (matter lines).1)).getD "",
           dd, (matter lines).2, pathString p⟩
    else .error "Invalid time value"
  | none =>
    .ok ⟨(getTruthy (List.lookup "title" (matter lines).1)).getD base,
         (getTruthy (List.lookup "description" (matter lines).1)).getD "",
         "", (matter lines).2, pathString p⟩

/-- Function `readPost(contentPath)`: try `contentPath + ".mdx"` then
`contentPath + ".md"`; `.ok none` when neither exists.  `existsSync` is
true for a directory too, and `readFileSync` then throws (`.error`). -/
def readPost (t : FsDir) (p : List String) : Except String (Option PostData) :=
  let q := p.dropLast
  let base := p.getLast?.getD ""
  match resolve (q ++ [base ++ ".mdx"]) t with
  | some (.file l _) => (mkPostData l p base).map some
  | some (.dir _) => .error "EISDIR"
  | none =>
    match resolve (q ++ [base ++ ".md"]) t with
    | some (.file l _) => (mkPostData l p base).map some
    | some (.dir _) => .error "EISDIR"
    | none => .ok none

/-- Predicate `isPost(contentPath)`: `existsSync(path + ".mdx") || existsSync(path + ".md")`. -/
def isPost (t : FsDir) (p : List String) : Bool :=
  let q := p.dropLast
  let base := p.getLast?.getD ""
  (resolve (q ++ [base ++ ".mdx"]) t).isSome ||
    (resolve (q ++ [base ++ ".md"]) t).isSome

/-- Predicate `isDirectory(contentPath)`. -/
def isDirectory (t : FsDir) (p : List String) : Bool :=
  match resolve p t with
  | some (.dir _) => true
  | _ => false

/-! ### `readDirectory` and its helpers (`lib/content.ts`) -/

/-- Computable lexicographic comparison of character lists (by code
point), the order underlying `String`'s `<`. -/
def strLtB : List Char → List Char → Bool
  | [], [] => false
  | [], _ :: _ => true
  | _ :: _, [] => false
  | a :: as, b :: bs =>
    if a.toNat < b.toNat then true
    else if b.toNat < a.toNat then false
    else strLtB as bs

/-- Computable `String` comparison; agrees with `<` (`strLt_iff`).
ISO calendar days compare chronologically under it, which is how the
model renders JavaScript `Date` comparisons at day granularity. -/
def strLt (s t : String) : Bool := strLtB s.data t.data

/-- The date a direct post child contributes inside `getDirectoryDate`:
a truthy frontmatter date when it parses (an invalid one compares false
against everything and contributes nothing), else the file's mtime. -/
def postDateContrib (lines : List String) (mtime : String) : Option String :=
  match getTruthy (List.lookup "date" (matter lines).1) with
  | some dd => if validIso dd then some dd else none
  | none => some mtime

/-- The fold of `getDirectoryDate`: `latestDate` starts at the epoch and
is replaced by every strictly later contribution of a direct post file. -/
def dirDateFold : FsDir → String → String
  | .nil, acc => acc
  | .consFile n l m r, acc =>
    if postName n then
      match postDateContrib l m with
      | some c => dirDateFold r (if strLt acc c then c else acc)
      | none => dirDateFold r acc
    else dirDateFold r acc
  | .consDir _ _ r, acc => dirDateFold r acc

/-- Function `getDirectoryDate(dirPath)`: most recent contribution of the direct
post files, or the current date when `latestDate` is still the epoch. -/
def getDirectoryDate (today : String) (d : FsDir) : String :=
  let latest := dirDateFold d "1970-01-01"
  if latest = "1970-01-01" then today else latest

/-- Function `getDirectoryDescription(dirPath)`: the description of `index.mdx`
when that path exists — `readFileSync` throws when it is a directory —
and `""` otherwise.  An `index.md` is never consulted. -/
def getDirectoryDescription (d : FsDir) : Except String String :=
  match d.find "index.mdx" with
  | some (.file l _) => .ok ((getTruthy (List.lookup "description" (matter l).1)).getD "")
  | some (.dir _) => .error "EISDIR"
  | none => .ok ""

/-- The entry `readDirectory` builds for a post-file child. -/
def mkFileEntry (base : List String) (n : String) (l : List String)
    (m : String) : Except String DirectoryEntry :=
  match getTruthy (List.lookup "date" (matter l).1) with
  | some dd =>
    if validIso dd then
      .ok ⟨n, false, extname n, dd, byteLengthLines l,
           (getTruthy (List.lookup "description" (matter l).1)).getD "",
           "/" ++ pathString (base ++ [stripExt n])⟩
    else .error "Invalid time value"
  | none =>
    .ok ⟨n, false, extname n, m, byteLengthLines l,
         (getTruthy (List.lookup "description" (matter l).1)).getD "",
         "/" ++ pathString (base ++ [stripExt n])⟩

/-- The loop of `readDirectory` over the children: directories become
directory entries, post files become file entries, anything else is
skipped; the first exception aborts. -/
def mkEntries (today : String) (base : List String) :
    FsDir → Except String (List DirectoryEntry)
  | .nil => .ok []
  | .consFile n l m r =>
    if postName n then
      match mkFileEntry base n l m with
      | .error e => .error e
      | .ok e =>
        match mkEntries today base r with
        | .error e2 => .error e2
        | .ok es => .ok (e :: es)
    else mkEntries today base r
  | .consDir n c r =>
    match getDirectoryDescription c with
    | .error e => .error e
    | .ok descr =>
      match mkEntries today base r with
      | .error e2 => .error e2
      | .ok es =>
        .ok (⟨n ++ "/", true, "", getDirectoryDate today c, 0, descr,
              "/" ++ pathString (base ++ [n])⟩ :: es)

/-- Function `readDirectory(contentPath)`: `[]` when the path is missing or not a
directory, else one entry per directory child and per post-file child. -/
def readDirectory (t : FsDir) (today : String) (p : List String) :
    Except String (List DirectoryEntry) :=
  match resolve p t with
  | some (.dir d) => mkEntries today p d
  | _ => .ok []

/-! ### `getAllPaths` (`lib/content.ts`) -/

/-- The recursive walk of `getAllPaths`: in listing order, a subdirectory
pushes its own segment path and then recurses; a post file pushes its
segment path with the extension stripped. -/
def walkItems : FsDir → List String → List (List String)
  | .nil, _ => []
  | .consFile n _ _ r, segs =>
    (if postName n then [segs ++ [stripExt n]] else []) ++ walkItems r segs
  | .consDir n c r, segs =>
    ((segs ++ [n]) :: walkItems c (segs ++ [n])) ++ walkItems r segs

/-- Function `getAllPaths()`: every routable segment path, from the content root. -/
def getAllPaths (t : FsDir) : List (List String) :=
  walkItems t []

/-! ## Claim C5: size formatting -/

theorem formatSize_small {b : Nat} (hb : b < 1024) : formatSize b = toString b := by
  rcases eq_or_ne b 0 with h | h
  · subst h; rfl
  · unfold formatSize
    rw [if_neg h, if_pos hb]

theorem formatSize_kib {b : Nat} (h1 : 1024 ≤ b) (h2 : b < 1048576) :
    ∃ k r : Nat, r < 10 ∧ 10 * k + r = (b * 10 + 512) / 1024 ∧
      formatSize b = toString k ++ "." ++ toString r ++ "K" := by
  refine ⟨(b * 10 + 512) / 1024 / 10, (b * 10 + 512) / 1024 % 10,
    Nat.mod_lt _ (by norm_num), Nat.div_add_mod _ 10, ?_⟩
  unfold formatSize
  rw [if_neg (by omega), if_neg (by omega), if_pos (by omega)]

theorem formatSize_mib {b : Nat} (h1 : 1048576 ≤ b) (h2 : b < 1073741824) :
    formatSize b = toString ((b + 524288) / 1048576) ++ "M" := by
  unfold formatSize
  rw [if_neg (by omega), if_neg (by omega), if_neg (by omega), if_pos (by omega)]

theorem formatSize_gib {b : Nat} (h1 : 1073741824 ≤ b) :
    formatSize b = toString ((b + 536870912) / 1073741824) ++ "G" := by
  unfold formatSize
  rw [if_neg (by omega), if_neg (by omega), if_neg (by omega), if_neg (by omega)]

/-- C5: `formatSize` maps 0 to `"0"`; counts below 1024 to their decimal
string; counts below 1 MiB to one-decimal (half-up-rounded) kibibytes
with suffix `K`; counts below 1 GiB to integer mebibytes with suffix `M`;
larger counts to integer gibibytes with suffix `G`; and in particular
`500 ↦ "500"`, `2048 ↦ "2.0K"`, `5242880 ↦ "5M"`, `3221225472 ↦ "3G"`. -/
theorem formatSize_spec :
    formatSize 0 = "0" ∧ formatSize 500 = "500" ∧ formatSize 2048 = "2.0K" ∧
    formatSize 5242880 = "5M" ∧ formatSize 3221225472 = "3G" ∧
    (∀ b : Nat, b < 1024 → formatSize b = toString b) ∧
    (∀ b : Nat, 1024 ≤ b → b < 1048576 →
      ∃ k r : Nat, r < 10 ∧ 10 * k + r = (b * 10 + 512) / 1024 ∧
        formatSize b = toString k ++ "." ++ toString r ++ "K") ∧
    (∀ b : Nat, 1048576 ≤ b → b < 1073741824 →
      formatSize b = toString ((b + 524288) / 1048576) ++ "M") ∧
    (∀ b : Nat, 1073741824 ≤ b →
      formatSize b = toString ((b + 536870912) / 1073741824) ++ "G") :=
  ⟨rfl, rfl, rfl, rfl, rfl,
   fun _ hb => formatSize_small hb,
   fun _ h1 h2 => formatSize_kib h1 h2,
   fun _ h1 h2 => formatSize_mib h1 h2,
   fun _ h1 => formatSize_gib h1⟩

/-- Witness for C5: the quantified branches evaluated at 1500 bytes. -/
theorem formatSize_spec_witness :
    (1024 ≤ 1500 ∧ 1500 < 1048576) ∧
    (∃ k r : Nat, r < 10 ∧ 10 * k + r = (1500 * 10 + 512) / 1024 ∧
      formatSize 1500 = toString k ++ "." ++ toString r ++ "K") :=
  ⟨⟨by decide, by decide⟩,
   formatSize_spec.2.2.2.2.2.2.1 1500 (by decide) (by decide)⟩

/-! ## Claims C1/C4: the presenter's sort -/

theorem mem_insertCmp {cmp : DirectoryEntry → DirectoryEntry → Int}
    {a x : DirectoryEntry} {l : List DirectoryEntry} :
    x ∈ insertCmp cmp a l ↔ x = a ∨ x ∈ l := by
  induction l with
  | nil => simp [insertCmp]
  | cons b l ih =>
    simp only [insertCmp]
    split
    · simp [List.mem_cons]
    · simp only [List.mem_cons, ih]
      tauto

/-- Inserting keeps the "directories first" pairwise shape, because the
comparator orders any directory strictly before any file. -/
theorem pairwise_dirs_insertCmp {cmp : DirectoryEntry → DirectoryEntry → Int}
    (hle : ∀ a b, cmp a b ≤ 0 → (a.isDirectory = true ∨ b.isDirectory = false))
    (hgt : ∀ a b, ¬ cmp a b ≤ 0 → (b.isDirectory = true ∨ a.isDirectory = false))
    (a : DirectoryEntry) (l : List DirectoryEntry)
    (h : l.Pairwise (fun x y => x.isDirectory = true ∨ y.isDirectory = false)) :
    (insertCmp cmp a l).Pairwise
      (fun x y => x.isDirectory = true ∨ y.isDirectory = false) := by
  induction l with
  | nil => simp [insertCmp]
  | cons b l ih =>
    rw [List.pairwise_cons] at h
    obtain ⟨hb, hl⟩ := h
    simp only [insertCmp]
    split
    · rename_i hab
      refine List.Pairwise.cons ?_ (List.Pairwise.cons hb hl)
      intro y hy
      rcases List.mem_cons.mp hy with rfl | hyl
      · exact hle a y hab
      · rcases hle a b hab with ha | hbf
        · exact Or.inl ha
        · rcases hb y hyl with hbT | hyF
          · rw [hbT] at hbf; cases hbf
          · exact Or.inr hyF
    · rename_i hab
      refine List.Pairwise.cons ?_ (ih hl)
      intro y hy
      rcases mem_insertCmp.mp hy with rfl | hyl
      · exact hgt _ b hab
      · exact hb y hyl

theorem pairwise_dirs_sortByCmp {cmp : DirectoryEntry → DirectoryEntry → Int}
    (hle : ∀ a b, cmp a b ≤ 0 → (a.isDirectory = true ∨ b.isDirectory = false))
    (hgt : ∀ a b, ¬ cmp a b ≤ 0 → (b.isDirectory = true ∨ a.isDirectory = false))
    (l : List DirectoryEntry) :
    (sortByCmp cmp l).Pairwise
      (fun x y => x.isDirectory = true ∨ y.isDirectory = false) := by
  induction l with
  | nil => exact List.Pairwise.nil
  | cons a l ih => exact pairwise_dirs_insertCmp hle hgt a _ ih

theorem entryCmp_le_dirs {col : SortColumn} {ord : SortOrder}
    {a b : DirectoryEntry} (h : entryCmp col ord a b ≤ 0) :
    a.isDirectory = true ∨ b.isDirectory = false := by
  cases ha : a.isDirectory
  · cases hb : b.isDirectory
    · exact Or.inr rfl
    · simp [entryCmp, ha, hb] at h
  · exact Or.inl rfl

theorem entryCmp_gt_dirs {col : SortColumn} {ord : SortOrder}
    {a b : DirectoryEntry} (h : ¬ entryCmp col ord a b ≤ 0) :
    b.isDirectory = true ∨ a.isDirectory = false := by
  cases hb : b.isDirectory
  · cases ha : a.isDirectory
    · exact Or.inr rfl
    · exfalso; exact h (by simp [entryCmp, ha, hb])
  · exact Or.inl rfl

theorem entryCmpM_le_dirs {col : SortColumnM} {ord : SortOrder}
    {a b : DirectoryEntry} (h : entryCmpM col ord a b ≤ 0) :
    a.isDirectory = true ∨ b.isDirectory = false := by
  cases ha : a.isDirectory
  · cases hb : b.isDirectory
    · exact Or.inr rfl
    · simp [entryCmpM, ha, hb] at h
  · exact Or.inl rfl

theorem entryCmpM_gt_dirs {col : SortColumnM} {ord : SortOrder}
    {a b : DirectoryEntry} (h : ¬ entryCmpM col ord a b ≤ 0) :
    b.isDirectory = true ∨ a.isDirectory = false := by
  cases hb : b.isDirectory
  · cases ha : a.isDirectory
    · exact Or.inr rfl
    · exfalso; exact h (by simp [entryCmpM, ha, hb])
  · exact Or.inl rfl

/-- C1: in the output of `sortEntries` (and of the mobile variant), for
every pair of entries in output order, the earlier one is a directory or
the later one is a file: every directory appears before every file, for
every sort column and order. -/
theorem sortEntries_directories_first :
    (∀ (es : List DirectoryEntry) (col : SortColumn) (ord : SortOrder),
      (sortEntries es col ord).Pairwise
        (fun a b => a.isDirectory = true ∨ b.isDirectory = false)) ∧
    (∀ (es : List DirectoryEntry) (col : SortColumnM) (ord : SortOrder),
      (sortEntriesM es col ord).Pairwise
        (fun a b => a.isDirectory = true ∨ b.isDirectory = false)) :=
  ⟨fun es _ _ => pairwise_dirs_sortByCmp
      (fun _ _ h => entryCmp_le_dirs h) (fun _ _ h => entryCmp_gt_dirs h) es,
   fun es _ _ => pairwise_dirs_sortByCmp
      (fun _ _ h => entryCmpM_le_dirs h) (fun _ _ h => entryCmpM_gt_dirs h) es⟩

theorem strCmpInt_eq_zero {a b : String} : strCmpInt a b = 0 ↔ a = b := by
  unfold strCmpInt
  split
  next h =>
    constructor
    · intro h0; exact absurd h0 (by norm_num)
    · intro he; exact absurd (he ▸ h) (lt_irrefl _)
  next h =>
    split
    next h2 =>
      constructor
      · intro h0; exact absurd h0 (by norm_num)
      · intro he; exact absurd (he ▸ h2) (lt_irrefl _)
    next h2 =>
      constructor
      · intro _; exact le_antisymm (not_lt.mp h2) (not_lt.mp h)
      · intro _; rfl

theorem colCmp_zero_trans {col : SortColumn} {x a y : DirectoryEntry}
    (h1 : colCmp col x a = 0) (h2 : colCmp col x y = 0) : colCmp col a y = 0 := by
  cases col <;> simp only [colCmp] at h1 h2 ⊢
  case name => rw [strCmpInt_eq_zero] at h1 h2 ⊢; exact h1 ▸ h2
  case date => rw [strCmpInt_eq_zero] at h1 h2 ⊢; exact h1 ▸ h2
  case size => omega
  case description => rw [strCmpInt_eq_zero] at h1 h2 ⊢; exact h1 ▸ h2

theorem entryCmp_eq_zero {col : SortColumn} {ord : SortOrder}
    {a b : DirectoryEntry} :
    entryCmp col ord a b = 0 ↔
      (a.isDirectory = b.isDirectory ∧ colCmp col a b = 0) := by
  unfold entryCmp
  cases ha : a.isDirectory <;> cases hb : b.isDirectory <;> cases ord <;>
    simp [neg_eq_zero]

theorem entryCmp_zero_trans {col : SortColumn} {ord : SortOrder}
    {x a y : DirectoryEntry} (h1 : entryCmp col ord x a = 0)
    (h2 : entryCmp col ord x y = 0) : entryCmp col ord a y = 0 := by
  rw [entryCmp_eq_zero] at h1 h2 ⊢
  exact ⟨h1.1.symm.trans h2.1, colCmp_zero_trans h1.2 h2.2⟩

/-- Inserting below the first not-smaller element puts an entry before
exactly the elements it ties with: filtering any tie class commutes. -/
theorem filter_insertCmp {cmp : DirectoryEntry → DirectoryEntry → Int}
    {x : DirectoryEntry}
    (hE : ∀ {a y : DirectoryEntry}, cmp x a = 0 → cmp x y = 0 → cmp a y = 0)
    (a : DirectoryEntry) (l : List DirectoryEntry) :
    (insertCmp cmp a l).filter (fun e => cmp x e == 0) =
      if cmp x a = 0 then a :: l.filter (fun e => cmp x e == 0)
      else l.filter (fun e => cmp x e == 0) := by
  induction l with
  | nil =>
    by_cases hpa : cmp x a = 0
    · rw [if_pos hpa]; simp [insertCmp, hpa]
    · rw [if_neg hpa]; simp [insertCmp, hpa]
  | cons b l ih =>
    simp only [insertCmp]
    split
    · rename_i hab
      by_cases hpa : cmp x a = 0 <;> by_cases hpb : cmp x b = 0 <;>
        simp [hpa, hpb, List.filter_cons]
    · rename_i hab
      by_cases hpa : cmp x a = 0
      · have hpb : ¬ cmp x b = 0 := fun hpb => hab (le_of_eq (hE hpa hpb))
        simp [hpa, hpb, ih, List.filter_cons]
      · simp [hpa, ih, List.filter_cons]

theorem filter_sortByCmp {cmp : DirectoryEntry → DirectoryEntry → Int}
    {x : DirectoryEntry}
    (hE : ∀ {a y : DirectoryEntry}, cmp x a = 0 → cmp x y = 0 → cmp a y = 0)
    (l : List DirectoryEntry) :
    (sortByCmp cmp l).filter (fun e => cmp x e == 0) =
      l.filter (fun e => cmp x e == 0) := by
  induction l with
  | nil => rfl
  | cons a l ih =>
    simp only [sortByCmp]
    rw [filter_insertCmp hE, ih, List.filter_cons]
    by_cases hpa : cmp x a = 0 <;> simp [hpa]

/-- C4: `sortEntries` is stable.  For every reference entry `x`, the
sublist of entries that compare equal to `x` under the selected
comparator is exactly the same, in the same order, before and after
sorting; so any two tied entries keep their relative input order. -/
theorem sortEntries_stable :
    ∀ (es : List DirectoryEntry) (col : SortColumn) (ord : SortOrder)
      (x : DirectoryEntry),
      (sortEntries es col ord).filter (fun e => entryCmp col ord x e == 0) =
        es.filter (fun e => entryCmp col ord x e == 0) :=
  fun es col ord x =>
    @filter_sortByCmp (entryCmp col ord) x
      (fun h1 h2 => entryCmp_zero_trans h1 h2) es

/-! ## Claim C6: missing or non-directory paths list as empty -/

/-- C6: for every path that does not resolve, or resolves to a file
rather than a directory, `readDirectory` returns `.ok []` — the empty
list, not an exception. -/
theorem readDirectory_absent_empty :
    ∀ (t : FsDir) (today : String) (p : List String),
      (resolve p t = none ∨ ∃ l m, resolve p t = some (.file l m)) →
      readDirectory t today p = Except.ok [] := by
  intro t today p h
  unfold readDirectory
  rcases h with h | ⟨l, m, h⟩ <;> rw [h]

/-- Witness for C6 at a missing path and at a file path. -/
theorem readDirectory_absent_empty_witness :
    (resolve ["missing"] FsDir.nil = none ∨
      ∃ l m, resolve ["missing"] FsDir.nil = some (.file l m)) ∧
    readDirectory FsDir.nil "2026-10-11" ["missing"] = Except.ok [] :=
  ⟨Or.inl rfl,
   readDirectory_absent_empty FsDir.nil "2026-10-11" ["missing"] (Or.inl rfl)⟩

/-! ## Claim C10: extension priority of `readPost` and `isPost` -/

theorem readPost_mdx_chosen {t : FsDir} {q : List String} {s : String}
    {l : List String} {m : String}
    (h : resolve (q ++ [s ++ ".mdx"]) t = some (.file l m)) :
    readPost t (q ++ [s]) = (mkPostData l (q ++ [s]) s).map some := by
  unfold readPost
  simp only [List.dropLast_concat, List.getLast?_concat, Option.getD_some]
  rw [h]

/-- C10 (amended): when the `.mdx` candidate resolves to a file,
`readPost` parses it (so it wins over any `.md` sibling); and `isPost`
is true exactly when a node — file or directory — exists at the `.mdx`
path or at the `.md` path (`fs.existsSync` does not check for a file). -/
theorem readPost_extension_priority :
    (∀ (t : FsDir) (q : List String) (s : String) (l1 l2 : List String)
        (m1 m2 : String),
      resolve (q ++ [s ++ ".mdx"]) t = some (.file l1 m1) →
      resolve (q ++ [s ++ ".md"]) t = some (.file l2 m2) →
      readPost t (q ++ [s]) = (mkPostData l1 (q ++ [s]) s).map some) ∧
    (∀ (t : FsDir) (p : List String),
      isPost t p = true ↔
        ((resolve (p.dropLast ++ [p.getLast?.getD "" ++ ".mdx"]) t).isSome ∨
          (resolve (p.dropLast ++ [p.getLast?.getD "" ++ ".md"]) t).isSome)) := by
  constructor
  · intro t q s l1 l2 m1 m2 h1 _
    exact readPost_mdx_chosen h1
  · intro t p
    simp [isPost]

/-- Witness for C10: with both `a.mdx` and `a.md` present as files,
`readPost` parses `a.mdx`. -/
theorem readPost_extension_priority_witness :
    readPost
        (FsDir.consFile "a.mdx" ["---", "title: First", "---"] "2024-01-01"
          (FsDir.consFile "a.md" ["---", "title: Second", "---"] "2024-01-01"
            FsDir.nil))
        ([] ++ ["a"]) =
      (mkPostData ["---", "title: First", "---"] ([] ++ ["a"]) "a").map some :=
  readPost_extension_priority.1
    (FsDir.consFile "a.mdx" ["---", "title: First", "---"] "2024-01-01"
      (FsDir.consFile "a.md" ["---", "title: Second", "---"] "2024-01-01"
        FsDir.nil))
    [] "a" ["---", "title: First", "---"] ["---", "title: Second", "---"]
    "2024-01-01" "2024-01-01" rfl rfl

/-- Counterexample to C10 as stated: a directory named `a.mdx` makes
`isPost ["a"]` true although no `.mdx` or `.md` file exists there. -/
theorem isPost_dir_node_cx :
    resolve ["a.mdx"] (FsDir.consDir "a.mdx" FsDir.nil FsDir.nil) =
      some (.dir FsDir.nil) ∧
    resolve ["a.md"] (FsDir.consDir "a.mdx" FsDir.nil FsDir.nil) = none ∧
    isPost (FsDir.consDir "a.mdx" FsDir.nil FsDir.nil) ["a"] = true :=
  ⟨rfl, rfl, rfl⟩

/-! ## Claims C8/C9: dates and descriptions of listed subdirectories -/

/-- The amended spec's description of a listed subdirectory: the
description of its `index.mdx` child when that is a file, else empty
(an `index.md` is not consulted). -/
def specDirDescription (d : FsDir) : String :=
  match d.find "index.mdx" with
  | some (.file l _) => (getTruthy (List.lookup "description" (matter l).1)).getD ""
  | _ => ""

/-- The date contributions of a subdirectory's direct post files, in
listing order, per the amended spec: frontmatter date when truthy and
valid, nothing when truthy but invalid, mtime when absent. -/
def specContribs (d : FsDir) : List String :=
  d.toList.filterMap (fun x =>
    match x with
    | (n, .file l m) => if postName n then postDateContrib l m else none
    | (_, .dir _) => none)

/-- Maximum of a list of ISO days over a starting floor. -/
def fmax (l : List String) (a : String) : String :=
  l.foldl (fun x y => if strLt x y then y else x) a

/-- The amended spec's date of a listed subdirectory: the most recent
contribution when it beats the epoch floor, else the current date. -/
def specDirDate (today : String) (d : FsDir) : String :=
  if fmax (specContribs d) "1970-01-01" = "1970-01-01" then today
  else fmax (specContribs d) "1970-01-01"

theorem charLt_iff {a b : Char} : (a.toNat < b.toNat) ↔ a < b := by
  constructor <;> intro h <;> exact h

theorem strLtB_iff : ∀ (as bs : List Char), strLtB as bs = true ↔ as < bs := by
  intro as
  induction as with
  | nil =>
    intro bs
    cases bs with
    | nil =>
      constructor
      · intro h; simp [strLtB] at h
      · intro h; nomatch h
    | cons b bs =>
      constructor
      · intro _; exact List.Lex.nil
      · intro _; rfl
  | cons a as ih =>
    intro bs
    cases bs with
    | nil =>
      constructor
      · intro h; simp [strLtB] at h
      · intro h; nomatch h
    | cons b bs =>
      simp only [strLtB]
      by_cases h1 : a.toNat < b.toNat
      · rw [if_pos h1]
        constructor
        · intro _; exact List.Lex.rel (charLt_iff.mp h1)
        · intro _; rfl
      · rw [if_neg h1]
        by_cases h2 : b.toNat < a.toNat
        · rw [if_pos h2]
          constructor
          · intro h; exact absurd h (by simp)
          · intro h
            exfalso
            cases h with
            | cons htl => exact absurd h2 (lt_irrefl _)
            | rel hr => exact h1 (charLt_iff.mpr hr)
        · rw [if_neg h2, ih bs]
          have hab : a = b :=
            le_antisymm (not_lt.mp (fun hlt => h2 ((@charLt_iff b a).mpr hlt)))
              (not_lt.mp (fun hlt => h1 ((@charLt_iff a b).mpr hlt)))
          subst hab
          constructor
          · intro h
            exact List.Lex.cons h
          · intro h
            cases h with
            | cons htl => exact htl
            | rel hr => exact absurd hr (lt_irrefl a)

theorem strLt_iff {s t : String} : strLt s t = true ↔ s < t := by
  constructor
  · intro hh
    exact String.lt_iff_toList_lt.mpr ((strLtB_iff s.data t.data).mp hh)
  · intro hh
    exact (strLtB_iff s.data t.data).mpr (String.lt_iff_toList_lt.mp hh)

theorem getDirectoryDescription_ok {d : FsDir} {x : String}
    (h : getDirectoryDescription d = .ok x) : x = specDirDescription d := by
  unfold getDirectoryDescription at h
  unfold specDirDescription
  rcases hf : d.find "index.mdx" with _ | nd
  · rw [hf] at h
    have h' : (Except.ok "" : Except String String) = .ok x := h
    injection h' with h'
    exact h'.symm
  · rcases nd with ⟨l, m⟩ | c
    · rw [hf] at h
      have h' : (Except.ok ((getTruthy (List.lookup "description" (matter l).1)).getD "")
          : Except String String) = .ok x := h
      injection h' with h'
      exact h'.symm
    · rw [hf] at h
      have h' : (Except.error "EISDIR" : Except String String) = .ok x := h
      exact Except.noConfusion h'

/-- Every directory child of a listed directory yields exactly the
directory entry built from `getDirectoryDate`/`getDirectoryDescription`. -/
theorem mkEntries_dir_mem {today : String} {base : List String} :
    ∀ {r : FsDir} {es : List DirectoryEntry} {n : String} {c : FsDir},
      mkEntries today base r = .ok es →
      (n, FsNode.dir c) ∈ r.toList →
      ∃ descr, getDirectoryDescription c = Except.ok descr ∧
        (⟨n ++ "/", true, "", getDirectoryDate today c, 0, descr,
          "/" ++ pathString (base ++ [n])⟩ : DirectoryEntry) ∈ es := by
  intro r
  induction r with
  | nil =>
    intro es n c _ hmem
    simp [FsDir.toList] at hmem
  | consFile n' l m r ih =>
    intro es n c hok hmem
    simp only [FsDir.toList, List.mem_cons] at hmem
    rcases hmem with heq | hmem
    · exact absurd heq (by simp)
    · unfold mkEntries at hok
      by_cases hpn : postName n' = true
      · rw [if_pos hpn] at hok
        cases hfe : mkFileEntry base n' l m with
        | error e =>
          rw [hfe] at hok
          exact Except.noConfusion hok
        | ok e =>
          rw [hfe] at hok
          cases hre : mkEntries today base r with
          | error e2 =>
            rw [hre] at hok
            exact Except.noConfusion hok
          | ok es' =>
            rw [hre] at hok
            have hok' : (Except.ok (e :: es') : Except String (List DirectoryEntry))
                = .ok es := hok
            injection hok' with hok'
            obtain ⟨descr, hd, hm⟩ := ih hre hmem
            exact ⟨descr, hd, hok' ▸ List.mem_cons_of_mem _ hm⟩
      · rw [if_neg hpn] at hok
        exact ih hok hmem
  | consDir n' c' r ihc ihr =>
    intro es n c hok hmem
    simp only [FsDir.toList, List.mem_cons] at hmem
    unfold mkEntries at hok
    cases hgd : getDirectoryDescription c' with
    | error e =>
      rw [hgd] at hok
      exact Except.noConfusion hok
    | ok descr =>
      rw [hgd] at hok
      cases hre : mkEntries today base r with
      | error e2 =>
        rw [hre] at hok
        exact Except.noConfusion hok
      | ok es' =>
        rw [hre] at hok
        have hok' : (Except.ok
            ((⟨n' ++ "/", true, "", getDirectoryDate today c', 0, descr,
              "/" ++ pathString (base ++ [n'])⟩ : DirectoryEntry) :: es')
            : Except String (List DirectoryEntry)) = .ok es := hok
        injection hok' with hok'
        rcases hmem with heq | hmem
        · simp only [Prod.mk.injEq, FsNode.dir.injEq] at heq
          obtain ⟨h1, h2⟩ := heq
          subst h1
          subst h2
          exact ⟨descr, hgd, hok' ▸ List.mem_cons_self _ _⟩
        · obtain ⟨descr2, hd2, hm2⟩ := ihr hre hmem
          exact ⟨descr2, hd2, hok' ▸ List.mem_cons_of_mem _ hm2⟩

theorem le_fmax (l : List String) (a : String) : a ≤ fmax l a := by
  induction l generalizing a with
  | nil => exact le_refl a
  | cons b l ih =>
    unfold fmax at ih ⊢
    simp only [List.foldl_cons]
    refine le_trans ?_ (ih (if strLt a b then b else a))
    by_cases hc : strLt a b = true
    · rw [if_pos hc]
      exact le_of_lt (strLt_iff.mp hc)
    · rw [if_neg hc]

theorem mem_le_fmax {l : List String} {x : String} (hx : x ∈ l) (a : String) :
    x ≤ fmax l a := by
  induction l generalizing a with
  | nil => cases hx
  | cons b l ih =>
    unfold fmax at ih ⊢
    simp only [List.foldl_cons]
    rcases List.mem_cons.mp hx with rfl | hx'
    · refine le_trans ?_ (le_fmax l _)
      by_cases hc : strLt a x = true
      · rw [if_pos hc]
      · rw [if_neg hc]
        exact not_lt.mp (fun hlt => hc (strLt_iff.mpr hlt))
    · exact ih hx' _

theorem fmax_mem_or (l : List String) (a : String) : fmax l a = a ∨ fmax l a ∈ l := by
  induction l generalizing a with
  | nil => exact Or.inl rfl
  | cons b l ih =>
    unfold fmax at ih ⊢
    simp only [List.foldl_cons]
    rcases ih (if strLt a b then b else a) with h | h
    · by_cases hab : strLt a b = true
      · rw [if_pos hab] at h ⊢
        rw [h]
        exact Or.inr (List.mem_cons_self b l)
      · rw [if_neg hab] at h ⊢
        exact Or.inl h
    · exact Or.inr (List.mem_cons_of_mem _ h)

theorem dirDateFold_eq (d : FsDir) :
    ∀ acc, dirDateFold d acc = fmax (specContribs d) acc := by
  induction d with
  | nil => intro acc; rfl
  | consFile n l m r ih =>
    intro acc
    by_cases hpn : postName n = true
    · cases hc : postDateContrib l m with
      | some cd =>
        simp [dirDateFold, specContribs, FsDir.toList, List.filterMap_cons,
          hpn, hc, fmax, ih]
      | none =>
        simp [dirDateFold, specContribs, FsDir.toList, List.filterMap_cons,
          hpn, hc, fmax, ih]
    · simp only [Bool.not_eq_true] at hpn
      simp [dirDateFold, specContribs, FsDir.toList, List.filterMap_cons,
        hpn, fmax, ih]
  | consDir n c r ihc ihr =>
    intro acc
    simp [dirDateFold, specContribs, FsDir.toList, List.filterMap_cons, fmax, ihr]

/-- C8 (amended): every subdirectory listed by `readDirectory` carries
as description the description of its own `index.mdx` file when that
exists, and `""` otherwise; an `index.md` is never consulted. -/
theorem readDirectory_dir_description :
    ∀ (t : FsDir) (today : String) (p : List String) (d : FsDir)
      (es : List DirectoryEntry) (n : String) (c : FsDir),
      resolve p t = some (.dir d) →
      readDirectory t today p = Except.ok es →
      (n, FsNode.dir c) ∈ d.toList →
      ∃ e ∈ es, e.name = n ++ "/" ∧ e.description = specDirDescription c := by
  intro t today p d es n c hres hok hmem
  unfold readDirectory at hok
  rw [hres] at hok
  obtain ⟨descr, hd, hm⟩ := mkEntries_dir_mem hok hmem
  exact ⟨_, hm, rfl, getDirectoryDescription_ok hd⟩

/-- Witness for C8: a subdirectory with an `index.mdx` whose description
is `"docs"`. -/
theorem readDirectory_dir_description_witness :
    ∃ e ∈ [(⟨"sub/", true, "", "2024-05-05", 0, "docs", "/sub"⟩ : DirectoryEntry)],
      e.name = "sub" ++ "/" ∧
      e.description = specDirDescription
        (FsDir.consFile "index.mdx" ["---", "description: docs", "---"]
          "2024-05-05" FsDir.nil) :=
  readDirectory_dir_description
    (FsDir.consDir "sub"
      (FsDir.consFile "index.mdx" ["---", "description: docs", "---"]
        "2024-05-05" FsDir.nil) FsDir.nil)
    "2026-01-01" []
    (FsDir.consDir "sub"
      (FsDir.consFile "index.mdx" ["---", "description: docs", "---"]
        "2024-05-05" FsDir.nil) FsDir.nil)
    [(⟨"sub/", true, "", "2024-05-05", 0, "docs", "/sub"⟩ : DirectoryEntry)]
    "sub"
    (FsDir.consFile "index.mdx" ["---", "description: docs", "---"]
      "2024-05-05" FsDir.nil)
    rfl rfl (by decide)

/-- Counterexample to C8 as stated: a subdirectory whose only index post
is `index.md` with description `"hello"` is listed with an empty
description — the `index.md` post is ignored. -/
theorem readDirectory_index_md_cx :
    readDirectory
        (FsDir.consDir "sub"
          (FsDir.consFile "index.md" ["---", "description: hello", "---"]
            "2024-01-01" FsDir.nil) FsDir.nil)
        "2026-01-01" [] =
      Except.ok [(⟨"sub/", true, "", "2024-01-01", 0, "", "/sub"⟩ : DirectoryEntry)] ∧
    (getTruthy (List.lookup "description"
        (matter ["---", "description: hello", "---"]).1)).getD "" = "hello" ∧
    ("" : String) ≠ "hello" :=
  ⟨rfl, rfl, by decide⟩

/-- C9 (amended): every subdirectory listed by `readDirectory` carries
as date the most recent of its direct post files' contributions
(truthy valid frontmatter date, else mtime; invalid truthy dates
contribute nothing), whenever that maximum beats the epoch
`1970-01-01`; when there are no contributions, or none beats the epoch,
the date is the current date instead. -/
theorem readDirectory_dir_date :
    ∀ (t : FsDir) (today : String) (p : List String) (d : FsDir)
      (es : List DirectoryEntry) (n : String) (c : FsDir),
      resolve p t = some (.dir d) →
      readDirectory t today p = Except.ok es →
      (n, FsNode.dir c) ∈ d.toList →
      ∃ e ∈ es, e.name = n ++ "/" ∧
        (fmax (specContribs c) "1970-01-01" ≠ "1970-01-01" →
          e.date = fmax (specContribs c) "1970-01-01" ∧
          e.date ∈ specContribs c ∧
          ∀ x ∈ specContribs c, x ≤ e.date) ∧
        (fmax (specContribs c) "1970-01-01" = "1970-01-01" → e.date = today) := by
  intro t today p d es n c hres hok hmem
  unfold readDirectory at hok
  rw [hres] at hok
  obtain ⟨descr, _, hm⟩ := mkEntries_dir_mem hok hmem
  refine ⟨_, hm, rfl, ?_, ?_⟩
  · intro hne
    have hdate : getDirectoryDate today c = fmax (specContribs c) "1970-01-01" := by
      unfold getDirectoryDate
      rw [dirDateFold_eq, if_neg hne]
    refine ⟨hdate, ?_, ?_⟩
    · rcases fmax_mem_or (specContribs c) "1970-01-01" with h | h
      · exact absurd h hne
      · exact hdate ▸ h
    · intro x hx
      exact hdate ▸ mem_le_fmax hx _
  · intro he
    show getDirectoryDate today c = today
    unfold getDirectoryDate
    rw [dirDateFold_eq, if_pos he]

/-- Witness for C9: a subdirectory with one post dated `2025-06-15`. -/
theorem readDirectory_dir_date_witness :
    ∃ e ∈ [(⟨"sub/", true, "", "2025-06-15", 0, "", "/sub"⟩ : DirectoryEntry)],
      e.name = "sub" ++ "/" ∧
      (fmax (specContribs
          (FsDir.consFile "p.mdx" ["---", "date: 2025-06-15", "---"]
            "2024-01-01" FsDir.nil)) "1970-01-01" ≠ "1970-01-01" →
        e.date = fmax (specContribs
          (FsDir.consFile "p.mdx" ["---", "date: 2025-06-15", "---"]
            "2024-01-01" FsDir.nil)) "1970-01-01" ∧
        e.date ∈ specContribs
          (FsDir.consFile "p.mdx" ["---", "date: 2025-06-15", "---"]
            "2024-01-01" FsDir.nil) ∧
        ∀ x ∈ specContribs
          (FsDir.consFile "p.mdx" ["---", "date: 2025-06-15", "---"]
            "2024-01-01" FsDir.nil), x ≤ e.date) ∧
      (fmax (specContribs
          (FsDir.consFile "p.mdx" ["---", "date: 2025-06-15", "---"]
            "2024-01-01" FsDir.nil)) "1970-01-01" = "1970-01-01" →
        e.date = "2026-02-23") :=
  readDirectory_dir_date
    (FsDir.consDir "sub"
      (FsDir.consFile "p.mdx" ["---", "date: 2025-06-15", "---"]
        "2024-01-01" FsDir.nil) FsDir.nil)
    "2026-02-23" []
    (FsDir.consDir "sub"
      (FsDir.consFile "p.mdx" ["---", "date: 2025-06-15", "---"]
        "2024-01-01" FsDir.nil) FsDir.nil)
    [(⟨"sub/", true, "", "2025-06-15", 0, "", "/sub"⟩ : DirectoryEntry)]
    "sub"
    (FsDir.consFile "p.mdx" ["---", "date: 2025-06-15", "---"]
      "2024-01-01" FsDir.nil)
    rfl rfl (by decide)

/-- Counterexample to C9 as stated: a subdirectory whose only post is
dated exactly `1970-01-01` is listed with the current date, not with the
most recent post date. -/
theorem readDirectory_epoch_date_cx :
    readDirectory
        (FsDir.consDir "sub"
          (FsDir.consFile "p.mdx" ["---", "date: 1970-01-01", "---"]
            "1970-01-01" FsDir.nil) FsDir.nil)
        "2026-02-23" [] =
      Except.ok [(⟨"sub/", true, "", "2026-02-23", 0, "", "/sub"⟩ : DirectoryEntry)] ∧
    specContribs
        (FsDir.consFile "p.mdx" ["---", "date: 1970-01-01", "---"]
          "1970-01-01" FsDir.nil) = ["1970-01-01"] ∧
    ("2026-02-23" : String) ≠ "1970-01-01" :=
  ⟨rfl, rfl, by decide⟩

/-! ## Claim C7: the entry invariant -/

theorem strEndsWith_iff {s suf : String} :
    strEndsWith s suf = true ↔
      suf.data.length ≤ s.data.length ∧
        s.data.drop (s.data.length - suf.data.length) = suf.data := by
  unfold strEndsWith
  rw [Bool.and_eq_true, decide_eq_true_eq, decide_eq_true_eq]

theorem extname_suffix {s : String} (e1 e2 e3 : Char)
    (hne1 : e1 ≠ '.') (hne2 : e2 ≠ '.') (hne3 : e3 ≠ '.')
    (h : strEndsWith s (String.mk ['.', e1, e2, e3]) = true)
    (hne : s ≠ String.mk ['.', e1, e2, e3]) :
    extname s = String.mk ['.', e1, e2, e3] := by
  rw [strEndsWith_iff] at h
  obtain ⟨hlen0, hdrop0⟩ := h
  have hlen : (4 : Nat) ≤ s.data.length := hlen0
  have hdrop : s.data.drop (s.data.length - 4) = ['.', e1, e2, e3] := hdrop0
  have hex : ∃ u : List Char, s.data = u ++ ['.', e1, e2, e3] ∧ u ≠ [] := by
    refine ⟨s.data.take (s.data.length - 4), ?_, ?_⟩
    · conv_lhs => rw [← List.take_append_drop (s.data.length - 4) s.data]
      rw [hdrop]
    · intro hnil
      have hlen' : s.data.length = 4 := by
        have := congrArg List.length hnil
        simp only [List.length_take, List.length_nil] at this
        omega
      apply hne
      have hdata : s.data = ['.', e1, e2, e3] := by
        have := hdrop
        rw [hlen'] at this
        simpa using this
      exact congrArg String.mk hdata
  obtain ⟨u, hu, hune⟩ := hex
  have hupos : 0 < u.length := List.length_pos.mpr hune
  unfold extname
  rw [hu, List.reverse_append]
  have hrev4 : (['.', e1, e2, e3] : List Char).reverse = [e3, e2, e1, '.'] := by
    simp
  rw [hrev4]
  have htw : List.takeWhile (fun c => decide (c ≠ '.'))
      (e3 :: e2 :: e1 :: '.' :: u.reverse) = [e3, e2, e1] := by
    simp [List.takeWhile_cons, hne1, hne2, hne3]
  rw [List.cons_append, List.cons_append, List.cons_append, List.cons_append,
    List.nil_append]
  rw [htw]
  have hl1 : ([e3, e2, e1] : List Char).length = 3 := rfl
  have hl2 : (e3 :: e2 :: e1 :: '.' :: u.reverse).length = u.length + 4 := by
    simp
  rw [hl1, hl2]
  rw [if_neg (by omega), if_neg (by omega)]
  simp

theorem postName_names {s : String} (h : postName s = true) :
    strEndsWith s ".mdx" = true ∨ strEndsWith s ".md" = true := by
  unfold postName at h
  exact Bool.or_eq_true _ _ |>.mp h

theorem extname_md {s : String} (h : strEndsWith s ".md" = true) (hne : s ≠ ".md") :
    extname s = ".md" := by
  rw [strEndsWith_iff] at h
  obtain ⟨hlen0, hdrop0⟩ := h
  have hlen : (3 : Nat) ≤ s.data.length := hlen0
  have hdrop : s.data.drop (s.data.length - 3) = ['.', 'm', 'd'] := hdrop0
  have hex : ∃ u : List Char, s.data = u ++ ['.', 'm', 'd'] ∧ u ≠ [] := by
    refine ⟨s.data.take (s.data.length - 3), ?_, ?_⟩
    · conv_lhs => rw [← List.take_append_drop (s.data.length - 3) s.data]
      rw [hdrop]
    · intro hnil
      have hlen' : s.data.length = 3 := by
        have := congrArg List.length hnil
        simp only [List.length_take, List.length_nil] at this
        omega
      apply hne
      have hdata : s.data = ['.', 'm', 'd'] := by
        have := hdrop
        rw [hlen'] at this
        simpa using this
      exact congrArg String.mk hdata
  obtain ⟨u, hu, hune⟩ := hex
  have hupos : 0 < u.length := List.length_pos.mpr hune
  unfold extname
  rw [hu, List.reverse_append]
  have hrev3 : (['.', 'm', 'd'] : List Char).reverse = ['d', 'm', '.'] := by simp
  rw [hrev3]
  have htw : List.takeWhile (fun c => decide (c ≠ '.'))
      ('d' :: 'm' :: '.' :: u.reverse) = ['d', 'm'] := by
    simp [List.takeWhile_cons]
  rw [List.cons_append, List.cons_append, List.cons_append, List.nil_append]
  rw [htw]
  have hl1 : (['d', 'm'] : List Char).length = 2 := rfl
  have hl2 : ('d' :: 'm' :: '.' :: u.reverse).length = u.length + 3 := by simp
  rw [hl1, hl2]
  rw [if_neg (by omega), if_neg (by omega)]
  simp

theorem mkFileEntry_ok {base : List String} {n : String} {l : List String}
    {m : String} {e : DirectoryEntry} (h : mkFileEntry base n l m = .ok e) :
    e.name = n ∧ e.isDirectory = false ∧ e.extension = extname n := by
  unfold mkFileEntry at h
  split at h
  · split at h
    · injection h with h
      rw [← h]
      exact ⟨rfl, rfl, rfl⟩
    · exact Except.noConfusion h
  · injection h with h
    rw [← h]
    exact ⟨rfl, rfl, rfl⟩

theorem mkEntries_shape {today : String} {base : List String} :
    ∀ {r : FsDir} {es : List DirectoryEntry},
      mkEntries today base r = .ok es →
      ∀ e ∈ es,
        (e.isDirectory = true ∧ e.extension = "") ∨
        (e.isDirectory = false ∧ postName e.name = true ∧
          e.extension = extname e.name) := by
  intro r
  induction r with
  | nil =>
    intro es hok e he
    have h' : (Except.ok [] : Except String (List DirectoryEntry)) = .ok es := hok
    injection h' with h'
    rw [← h'] at he
    cases he
  | consFile n' l m r ih =>
    intro es hok e he
    unfold mkEntries at hok
    by_cases hpn : postName n' = true
    · rw [if_pos hpn] at hok
      cases hfe : mkFileEntry base n' l m with
      | error e2 =>
        rw [hfe] at hok
        exact Except.noConfusion hok
      | ok e1 =>
        rw [hfe] at hok
        cases hre : mkEntries today base r with
        | error e2 =>
          rw [hre] at hok
          exact Except.noConfusion hok
        | ok es' =>
          rw [hre] at hok
          have hok' : (Except.ok (e1 :: es') : Except String (List DirectoryEntry))
              = .ok es := hok
          injection hok' with hok'
          rw [← hok'] at he
          rcases List.mem_cons.mp he with rfl | he'
          · obtain ⟨h1, h2, h3⟩ := mkFileEntry_ok hfe
            exact Or.inr ⟨h2, h1 ▸ hpn, h1 ▸ h3⟩
          · exact ih hre e he'
    · rw [if_neg hpn] at hok
      exact ih hok e he
  | consDir n' c' r ihc ihr =>
    intro es hok e he
    unfold mkEntries at hok
    cases hgd : getDirectoryDescription c' with
    | error e2 =>
      rw [hgd] at hok
      exact Except.noConfusion hok
    | ok descr =>
      rw [hgd] at hok
      cases hre : mkEntries today base r with
      | error e2 =>
        rw [hre] at hok
        exact Except.noConfusion hok
      | ok es' =>
        rw [hre] at hok
        have hok' : (Except.ok
            ((⟨n' ++ "/", true, "", getDirectoryDate today c', 0, descr,
              "/" ++ pathString (base ++ [n'])⟩ : DirectoryEntry) :: es')
            : Except String (List DirectoryEntry)) = .ok es := hok
        injection hok' with hok'
        rw [← hok'] at he
        rcases List.mem_cons.mp he with rfl | he'
        · exact Or.inl ⟨rfl, rfl⟩
        · exact ihr hre e he'

/-- C7 (amended): every entry of `readDirectory` satisfies exactly one
of: it is a directory with empty extension, or it is a file whose name
ends in a recognized post extension and whose extension is
`path.extname` of the name — non-empty except for the dotfiles `.mdx`
and `.md` themselves, whose `extname` is empty; non-post files are
never listed. -/
theorem readDirectory_entry_invariant :
    ∀ (t : FsDir) (today : String) (p : List String) (es : List DirectoryEntry),
      readDirectory t today p = Except.ok es →
      ∀ e ∈ es,
        (e.isDirectory = true ∧ e.extension = "") ∨
        (e.isDirectory = false ∧
          (strEndsWith e.name ".mdx" = true ∨ strEndsWith e.name ".md" = true) ∧
          e.extension = extname e.name ∧
          (e.name ≠ ".mdx" → e.name ≠ ".md" → e.extension ≠ "")) := by
  intro t today p es hok e he
  unfold readDirectory at hok
  cases hres : resolve p t with
  | none =>
    rw [hres] at hok
    have h' : (Except.ok [] : Except String (List DirectoryEntry)) = .ok es := hok
    injection h' with h'
    rw [← h'] at he
    cases he
  | some nd =>
    cases nd with
    | file l m =>
      rw [hres] at hok
      have h' : (Except.ok [] : Except String (List DirectoryEntry)) = .ok es := hok
      injection h' with h'
      rw [← h'] at he
      cases he
    | dir d =>
      rw [hres] at hok
      rcases mkEntries_shape hok e he with h | ⟨h1, h2, h3⟩
      · exact Or.inl h
      · refine Or.inr ⟨h1, postName_names h2, h3, ?_⟩
        intro hmdx hmd
        rcases postName_names h2 with hx | hx
        · rw [h3, extname_suffix 'm' 'd' 'x' (by decide) (by decide) (by decide) hx hmdx]
          decide
        · rw [h3, extname_md hx hmd]
          decide

/-- Witness for C7 at the single post-file entry of a concrete listing. -/
theorem readDirectory_entry_invariant_witness :
    ((⟨"a.mdx", false, ".mdx", "2024-01-01", 1, "", "/a"⟩ : DirectoryEntry).isDirectory = true ∧
      (⟨"a.mdx", false, ".mdx", "2024-01-01", 1, "", "/a"⟩ : DirectoryEntry).extension = "") ∨
    ((⟨"a.mdx", false, ".mdx", "2024-01-01", 1, "", "/a"⟩ : DirectoryEntry).isDirectory = false ∧
      (strEndsWith (⟨"a.mdx", false, ".mdx", "2024-01-01", 1, "", "/a"⟩ : DirectoryEntry).name ".mdx" = true ∨
        strEndsWith (⟨"a.mdx", false, ".mdx", "2024-01-01", 1, "", "/a"⟩ : DirectoryEntry).name ".md" = true) ∧
      (⟨"a.mdx", false, ".mdx", "2024-01-01", 1, "", "/a"⟩ : DirectoryEntry).extension =
        extname (⟨"a.mdx", false, ".mdx", "2024-01-01", 1, "", "/a"⟩ : DirectoryEntry).name ∧
      ((⟨"a.mdx", false, ".mdx", "2024-01-01", 1, "", "/a"⟩ : DirectoryEntry).name ≠ ".mdx" →
        (⟨"a.mdx", false, ".mdx", "2024-01-01", 1, "", "/a"⟩ : DirectoryEntry).name ≠ ".md" →
        (⟨"a.mdx", false, ".mdx", "2024-01-01", 1, "", "/a"⟩ : DirectoryEntry).extension ≠ "")) :=
  readDirectory_entry_invariant
    (FsDir.consFile "a.mdx" ["x"] "2024-01-01" FsDir.nil)
    "2026-01-01" []
    [(⟨"a.mdx", false, ".mdx", "2024-01-01", 1, "", "/a"⟩ : DirectoryEntry)]
    rfl
    (⟨"a.mdx", false, ".mdx", "2024-01-01", 1, "", "/a"⟩ : DirectoryEntry)
    (by decide)

/-- Counterexample to C7 as stated: a file named exactly `.mdx` is a
recognized post file, is listed with `isDirectory = false`, yet its
`path.extname` — and hence its listed extension — is empty. -/
theorem readDirectory_dotfile_extension_cx :
    readDirectory (FsDir.consFile ".mdx" ["hello"] "2024-01-01" FsDir.nil)
        "2026-01-01" [] =
      Except.ok [(⟨".mdx", false, "", "2024-01-01", 5, "", "/"⟩ : DirectoryEntry)] ∧
    postName ".mdx" = true ∧
    extname ".mdx" = "" :=
  ⟨rfl, rfl, rfl⟩

/-! ## Claim C3: the post round-trip -/

theorem takeWhile_append_not {α : Type} (p : α → Bool) (xs : List α) (y : α)
    (ys : List α) (hxs : ∀ x ∈ xs, p x = true) (hy : p y = false) :
    (xs ++ y :: ys).takeWhile p = xs := by
  induction xs with
  | nil => simp [List.takeWhile_cons, hy]
  | cons a xs ih =>
    have hpa : p a = true := hxs a (List.mem_cons_self a xs)
    rw [List.cons_append, List.takeWhile_cons, hpa]
    simp only [if_true]
    rw [ih (fun x hx => hxs x (List.mem_cons_of_mem _ hx))]

theorem dropWhile_append_not {α : Type} (p : α → Bool) (xs : List α) (y : α)
    (ys : List α) (hxs : ∀ x ∈ xs, p x = true) (hy : p y = false) :
    (xs ++ y :: ys).dropWhile p = y :: ys := by
  induction xs with
  | nil => simp [List.dropWhile_cons, hy]
  | cons a xs ih =>
    have hpa : p a = true := hxs a (List.mem_cons_self a xs)
    rw [List.cons_append, List.dropWhile_cons, hpa]
    simp only [if_true]
    exact ih (fun x hx => hxs x (List.mem_cons_of_mem _ hx))

/-- Applying `matter` to a well-delimited metadata block parses exactly the block
lines and returns exactly the body. -/
theorem matter_meta (ms body : List String) (hms : ∀ l ∈ ms, l ≠ "---") :
    matter ("---" :: (ms ++ "---" :: body)) = (ms.filterMap parseLine, body) := by
  have hp : ∀ l ∈ ms, (fun l => decide (l ≠ "---")) l = true := by
    intro l hl
    simp [hms l hl]
  have hy : (fun l => decide (l ≠ "---")) "---" = false := by simp
  have ht := takeWhile_append_not (fun l => decide (l ≠ "---")) ms "---" body hp hy
  have hd := dropWhile_append_not (fun l => decide (l ≠ "---")) ms "---" body hp hy
  unfold matter
  simp only [if_pos rfl]
  rw [ht, hd]
  simp

theorem trimChars_space (cs : List Char) : trimChars (' ' :: cs) = trimChars cs := by
  unfold trimChars
  rw [List.dropWhile_cons]
  simp [isWSChar]

/-- Parsing a canonical `key: value` line recovers the key and the
trim-fixed value. -/
theorem parseLine_mk (k v : String) (hk : ∀ c ∈ k.data, (fun c => decide (c ≠ ':')) c = true)
    (hv : trimChars v.data = v.data) :
    parseLine (k ++ ": " ++ v) = some (k, v) := by
  have hdata : (k ++ ": " ++ v).data = k.data ++ ':' :: ' ' :: v.data := by
    rw [String.data_append, String.data_append, List.append_assoc]
    rfl
  have hy : (fun c => decide (c ≠ ':')) ':' = false := by simp
  have ht := takeWhile_append_not (fun c => decide (c ≠ ':')) k.data ':'
    (' ' :: v.data) hk hy
  have hd := dropWhile_append_not (fun c => decide (c ≠ ':')) k.data ':'
    (' ' :: v.data) hk hy
  have hany : (k.data ++ ':' :: ' ' :: v.data).any (fun c => decide (c = ':')) = true := by
    rw [List.any_append]
    simp
  unfold parseLine
  rw [hdata, if_pos hany, ht, hd]
  simp only [List.drop_succ_cons, List.drop_zero]
  rw [trimChars_space, hv]

theorem getTruthy_ne {v : String} (h : v ≠ "") : getTruthy (some v) = some v := by
  show (if v = "" then none else some v) = some v
  rw [if_neg h]

theorem getTruthy_getD {v : String} : (getTruthy (some v)).getD "" = v := by
  show Option.getD (if v = "" then none else some v) "" = v
  by_cases h : v = ""
  · rw [if_pos h, h]
    rfl
  · rw [if_neg h]
    rfl

theorem validIso_ne {s : String} (h : validIso s = true) : s ≠ "" := by
  intro he
  rw [he] at h
  simp [validIso] at h

theorem isWS_not_digit {c : Char} (h : isWSChar c = true) : c.isDigit = false := by
  unfold isWSChar at h
  simp only [Bool.or_eq_true, decide_eq_true_eq] at h
  rcases h with (h | h) | h <;> subst h <;> decide

theorem trimChars_eq_of_no_ws {cs : List Char}
    (h : ∀ c ∈ cs, isWSChar c = false) :
    trimChars cs = cs := by
  have hdw : ∀ (l : List Char), (∀ c ∈ l, isWSChar c = false) →
      l.dropWhile isWSChar = l := by
    intro l hl
    cases l with
    | nil => rfl
    | cons a l =>
      rw [List.dropWhile_cons, hl a (List.mem_cons_self a l)]
      simp
  unfold trimChars
  rw [hdw _ h, hdw _ (fun c hc => h c (List.mem_reverse.mp hc)), List.reverse_reverse]

theorem monthOk_digits {m1 m2 : Char} (h : monthOk m1 m2 = true) :
    m1.isDigit = true ∧ m2.isDigit = true := by
  unfold monthOk at h
  simp only [Bool.or_eq_true, Bool.and_eq_true, decide_eq_true_eq] at h
  rcases h with ⟨⟨h1, h2⟩, _⟩ | ⟨h1, h2⟩
  · subst h1
    exact ⟨by decide, h2⟩
  · subst h1
    rcases h2 with (h2 | h2) | h2 <;> subst h2 <;> exact ⟨by decide, by decide⟩

theorem dayOk_digits {d1 d2 : Char} (h : dayOk d1 d2 = true) :
    d1.isDigit = true ∧ d2.isDigit = true := by
  unfold dayOk at h
  simp only [Bool.or_eq_true, Bool.and_eq_true, decide_eq_true_eq] at h
  rcases h with (⟨⟨h1, h2⟩, _⟩ | ⟨h1, h2⟩) | ⟨⟨h1, h2⟩, _⟩ <;> subst h1 <;>
    exact ⟨by decide, h2⟩

theorem validIso_trim {s : String} (h : validIso s = true) :
    trimChars s.data = s.data := by
  unfold validIso at h
  split at h
  next y1 y2 y3 y4 c1 m1 m2 c2 d1 d2 heq =>
    simp only [Bool.and_eq_true, decide_eq_true_eq] at h
    obtain ⟨⟨⟨hy, ⟨hc1, hc2⟩⟩, hm⟩, hd⟩ := h
    obtain ⟨⟨⟨hy1, hy2⟩, hy3⟩, hy4⟩ := hy
    obtain ⟨hm1, hm2⟩ := monthOk_digits hm
    obtain ⟨hd1, hd2⟩ := dayOk_digits hd
    apply trimChars_eq_of_no_ws
    intro c hc
    rw [heq] at hc
    have hdig : c.isDigit = true ∨ c = '-' := by
      simp only [List.mem_cons, List.not_mem_nil, or_false] at hc
      rcases hc with rfl | rfl | rfl | rfl | rfl | rfl | rfl | rfl | rfl | rfl
      · exact Or.inl hy1
      · exact Or.inl hy2
      · exact Or.inl hy3
      · exact Or.inl hy4
      · exact Or.inr hc1
      · exact Or.inl hm1
      · exact Or.inl hm2
      · exact Or.inr hc2
      · exact Or.inl hd1
      · exact Or.inl hd2
    rcases hdig with hdig | hdig
    · cases hw : isWSChar c
      · rfl
      · rw [isWS_not_digit hw] at hdig
        cases hdig
    · subst hdig
      rfl
  next =>
    exact absurd h (by simp)

/-- The two field-level outcomes of `mkPostData` given the parsed data. -/
theorem mkPostData_fields {l p : List String} {base : String}
    {data : List (String × String)} {body : List String}
    (hm : matter l = (data, body)) :
    (getTruthy (List.lookup "date" data) = none →
      mkPostData l p base = .ok ⟨(getTruthy (List.lookup "title" data)).getD base,
        (getTruthy (List.lookup "description" data)).getD "", "", body, pathString p⟩) ∧
    (∀ D, getTruthy (List.lookup "date" data) = some D → validIso D = true →
      mkPostData l p base = .ok ⟨(getTruthy (List.lookup "title" data)).getD base,
        (getTruthy (List.lookup "description" data)).getD "", D, body, pathString p⟩) := by
  have h1 : (matter l).1 = data := by rw [hm]
  have h2 : (matter l).2 = body := by rw [hm]
  constructor
  · intro hd
    unfold mkPostData
    rw [h1, h2]
    simp only [hd]
  · intro D hd hv
    unfold mkPostData
    rw [h1, h2]
    simp only [hd]
    rw [if_pos hv]

/-- A line built as `prefix ++ value` with a long prefix is not the
frontmatter delimiter. -/
theorem line_ne_dashes {pre v : String} (h : 4 ≤ pre.length) : pre ++ v ≠ "---" := by
  intro he
  have hlen := congrArg String.length he
  rw [String.length_append] at hlen
  have h3 : ("---" : String).length = 3 := rfl
  omega

/-- A value writable on a single metadata line: fixed under trimming and
free of newlines. -/
abbrev okStr (v : String) : Prop :=
  trimStr v = v ∧ ∀ c ∈ v.data, c ≠ '\n'

/-- Follows `readPost` when the `.mdx` candidate is absent: the `.md`
candidate is parsed instead. -/
theorem readPost_md_chosen {t : FsDir} {q : List String} {s : String}
    {l : List String} {m : String}
    (hn : resolve (q ++ [s ++ ".mdx"]) t = none)
    (h : resolve (q ++ [s ++ ".md"]) t = some (.file l m)) :
    readPost t (q ++ [s]) = (mkPostData l (q ++ [s]) s).map some := by
  unfold readPost
  simp only [List.dropLast_concat, List.getLast?_concat, Option.getD_some]
  rw [hn, h]

/-- C3 (amended): writing a post with a metadata block and loading it
from its extensionless path round-trips the written title, ISO date,
description and body: for a `.mdx` post unconditionally, and for a
`.md` post whenever no same-slug `.mdx` node exists (a same-slug
`.mdx` shadows the `.md` post, see the counterexample).  A block
without a date yields `""`, without a title yields the final path
segment, without a description yields `""`. -/
theorem readPost_roundtrip :
    ∀ (t : FsDir) (q : List String) (s : String) (m : String)
      (T D X : String) (body : List String),
      okStr T → T ≠ "" → okStr X → validIso D = true →
      (resolve (q ++ [s ++ ".mdx"]) t =
          some (.file ("---" :: ("title: " ++ T) :: ("date: " ++ D)
            :: ("description: " ++ X) :: "---" :: body) m) →
        readPost t (q ++ [s]) =
          Except.ok (some ⟨T, X, D, body, pathString (q ++ [s])⟩)) ∧
      (resolve (q ++ [s ++ ".mdx"]) t =
          some (.file ("---" :: ("title: " ++ T)
            :: ("description: " ++ X) :: "---" :: body) m) →
        readPost t (q ++ [s]) =
          Except.ok (some ⟨T, X, "", body, pathString (q ++ [s])⟩)) ∧
      (resolve (q ++ [s ++ ".mdx"]) t =
          some (.file ("---" :: ("date: " ++ D)
            :: ("description: " ++ X) :: "---" :: body) m) →
        readPost t (q ++ [s]) =
          Except.ok (some ⟨s, X, D, body, pathString (q ++ [s])⟩)) ∧
      (resolve (q ++ [s ++ ".mdx"]) t =
          some (.file ("---" :: ("title: " ++ T) :: ("date: " ++ D)
            :: "---" :: body) m) →
        readPost t (q ++ [s]) =
          Except.ok (some ⟨T, "", D, body, pathString (q ++ [s])⟩)) ∧
      (resolve (q ++ [s ++ ".mdx"]) t = none →
        resolve (q ++ [s ++ ".md"]) t =
          some (.file ("---" :: ("title: " ++ T) :: ("date: " ++ D)
            :: ("description: " ++ X) :: "---" :: body) m) →
        readPost t (q ++ [s]) =
          Except.ok (some ⟨T, X, D, body, pathString (q ++ [s])⟩)) ∧
      (resolve (q ++ [s ++ ".mdx"]) t = none →
        resolve (q ++ [s ++ ".md"]) t =
          some (.file ("---" :: ("title: " ++ T)
            :: ("description: " ++ X) :: "---" :: body) m) →
        readPost t (q ++ [s]) =
          Except.ok (some ⟨T, X, "", body, pathString (q ++ [s])⟩)) ∧
      (resolve (q ++ [s ++ ".mdx"]) t = none →
        resolve (q ++ [s ++ ".md"]) t =
          some (.file ("---" :: ("date: " ++ D)
            :: ("description: " ++ X) :: "---" :: body) m) →
        readPost t (q ++ [s]) =
          Except.ok (some ⟨s, X, D, body, pathString (q ++ [s])⟩)) ∧
      (resolve (q ++ [s ++ ".mdx"]) t = none →
        resolve (q ++ [s ++ ".md"]) t =
          some (.file ("---" :: ("title: " ++ T) :: ("date: " ++ D)
            :: "---" :: body) m) →
        readPost t (q ++ [s]) =
          Except.ok (some ⟨T, "", D, body, pathString (q ++ [s])⟩)) := by
  intro t q s m T D X body hT hTne hX hD
  have hp1 : parseLine ("title: " ++ T) = some ("title", T) :=
    parseLine_mk "title" T (by decide) (congrArg String.data hT.1)
  have hp2 : parseLine ("date: " ++ D) = some ("date", D) :=
    parseLine_mk "date" D (by decide) (validIso_trim hD)
  have hp3 : parseLine ("description: " ++ X) = some ("description", X) :=
    parseLine_mk "description" X (by decide) (congrArg String.data hX.1)
  have hmk1 : mkPostData ("---" :: ("title: " ++ T) :: ("date: " ++ D)
      :: ("description: " ++ X) :: "---" :: body) (q ++ [s]) s
      = Except.ok ⟨T, X, D, body, pathString (q ++ [s])⟩ := by
    have hms : ∀ l ∈ ["title: " ++ T, "date: " ++ D, "description: " ++ X],
        l ≠ "---" := by
      intro l hl
      simp only [List.mem_cons, List.not_mem_nil, or_false] at hl
      rcases hl with rfl | rfl | rfl <;> exact line_ne_dashes (by decide)
    have hm0 := matter_meta ["title: " ++ T, "date: " ++ D, "description: " ++ X]
      body hms
    have hfm : List.filterMap parseLine
        ["title: " ++ T, "date: " ++ D, "description: " ++ X]
        = [("title", T), ("date", D), ("description", X)] := by
      simp [List.filterMap_cons, hp1, hp2, hp3]
    have hm : matter ("---" :: ("title: " ++ T) :: ("date: " ++ D)
        :: ("description: " ++ X) :: "---" :: body)
        = ([("title", T), ("date", D), ("description", X)], body) := by
      have h' := hm0
      rw [hfm] at h'
      exact h'
    have hld : getTruthy (List.lookup "date"
        [("title", T), ("date", D), ("description", X)]) = some D := by
      rw [show List.lookup "date" [("title", T), ("date", D), ("description", X)]
        = some D from rfl]
      exact getTruthy_ne (validIso_ne hD)
    rw [(mkPostData_fields hm).2 D hld hD]
    rw [show List.lookup "title" [("title", T), ("date", D), ("description", X)]
      = some T from rfl]
    rw [show List.lookup "description"
      [("title", T), ("date", D), ("description", X)] = some X from rfl]
    rw [getTruthy_ne hTne, Option.getD_some, getTruthy_getD]
  have hmk2 : mkPostData ("---" :: ("title: " ++ T)
      :: ("description: " ++ X) :: "---" :: body) (q ++ [s]) s
      = Except.ok ⟨T, X, "", body, pathString (q ++ [s])⟩ := by
    have hms : ∀ l ∈ ["title: " ++ T, "description: " ++ X], l ≠ "---" := by
      intro l hl
      simp only [List.mem_cons, List.not_mem_nil, or_false] at hl
      rcases hl with rfl | rfl <;> exact line_ne_dashes (by decide)
    have hm0 := matter_meta ["title: " ++ T, "description: " ++ X] body hms
    have hfm : List.filterMap parseLine ["title: " ++ T, "description: " ++ X]
        = [("title", T), ("description", X)] := by
      simp [List.filterMap_cons, hp1, hp3]
    have hm : matter ("---" :: ("title: " ++ T)
        :: ("description: " ++ X) :: "---" :: body)
        = ([("title", T), ("description", X)], body) := by
      have h' := hm0
      rw [hfm] at h'
      exact h'
    have hld : getTruthy (List.lookup "date"
        [("title", T), ("description", X)]) = none := rfl
    rw [(mkPostData_fields hm).1 hld]
    rw [show List.lookup "title" [("title", T), ("description", X)]
      = some T from rfl]
    rw [show List.lookup "description" [("title", T), ("description", X)]
      = some X from rfl]
    rw [getTruthy_ne hTne, Option.getD_some, getTruthy_getD]
  have hmk3 : mkPostData ("---" :: ("date: " ++ D)
      :: ("description: " ++ X) :: "---" :: body) (q ++ [s]) s
      = Except.ok ⟨s, X, D, body, pathString (q ++ [s])⟩ := by
    have hms : ∀ l ∈ ["date: " ++ D, "description: " ++ X], l ≠ "---" := by
      intro l hl
      simp only [List.mem_cons, List.not_mem_nil, or_false] at hl
      rcases hl with rfl | rfl <;> exact line_ne_dashes (by decide)
    have hm0 := matter_meta ["date: " ++ D, "description: " ++ X] body hms
    have hfm : List.filterMap parseLine ["date: " ++ D, "description: " ++ X]
        = [("date", D), ("description", X)] := by
      simp [List.filterMap_cons, hp2, hp3]
    have hm : matter ("---" :: ("date: " ++ D)
        :: ("description: " ++ X) :: "---" :: body)
        = ([("date", D), ("description", X)], body) := by
      have h' := hm0
      rw [hfm] at h'
      exact h'
    have hld : getTruthy (List.lookup "date"
        [("date", D), ("description", X)]) = some D := by
      rw [show List.lookup "date" [("date", D), ("description", X)]
        = some D from rfl]
      exact getTruthy_ne (validIso_ne hD)
    rw [(mkPostData_fields hm).2 D hld hD]
    rw [show List.lookup "description" [("date", D), ("description", X)]
      = some X from rfl]
    rw [getTruthy_getD]
    rfl
  have hmk4 : mkPostData ("---" :: ("title: " ++ T) :: ("date: " ++ D)
      :: "---" :: body) (q ++ [s]) s
      = Except.ok ⟨T, "", D, body, pathString (q ++ [s])⟩ := by
    have hms : ∀ l ∈ ["title: " ++ T, "date: " ++ D], l ≠ "---" := by
      intro l hl
      simp only [List.mem_cons, List.not_mem_nil, or_false] at hl
      rcases hl with rfl | rfl <;> exact line_ne_dashes (by decide)
    have hm0 := matter_meta ["title: " ++ T, "date: " ++ D] body hms
    have hfm : List.filterMap parseLine ["title: " ++ T, "date: " ++ D]
        = [("title", T), ("date", D)] := by
      simp [List.filterMap_cons, hp1, hp2]
    have hm : matter ("---" :: ("title: " ++ T) :: ("date: " ++ D)
        :: "---" :: body)
        = ([("title", T), ("date", D)], body) := by
      have h' := hm0
      rw [hfm] at h'
      exact h'
    have hld : getTruthy (List.lookup "date" [("title", T), ("date", D)])
        = some D := by
      rw [show List.lookup "date" [("title", T), ("date", D)] = some D from rfl]
      exact getTruthy_ne (validIso_ne hD)
    rw [(mkPostData_fields hm).2 D hld hD]
    rw [show List.lookup "title" [("title", T), ("date", D)] = some T from rfl]
    rw [getTruthy_ne hTne, Option.getD_some]
    rfl
  refine ⟨fun hres => ?_, fun hres => ?_, fun hres => ?_, fun hres => ?_,
    fun hn hres => ?_, fun hn hres => ?_, fun hn hres => ?_, fun hn hres => ?_⟩
  · rw [readPost_mdx_chosen hres, hmk1]
    rfl
  · rw [readPost_mdx_chosen hres, hmk2]
    rfl
  · rw [readPost_mdx_chosen hres, hmk3]
    rfl
  · rw [readPost_mdx_chosen hres, hmk4]
    rfl
  · rw [readPost_md_chosen hn hres, hmk1]
    rfl
  · rw [readPost_md_chosen hn hres, hmk2]
    rfl
  · rw [readPost_md_chosen hn hres, hmk3]
    rfl
  · rw [readPost_md_chosen hn hres, hmk4]
    rfl

/-- Witness for C3: a concrete `.mdx` post with title, date and
description loads back with exactly those fields, and so does an
unshadowed `.md` post. -/
theorem readPost_roundtrip_witness :
    readPost
        (FsDir.consFile "a.mdx"
          ["---", "title: My Post", "date: 2023-11-01",
           "description: CI notes", "---", "body"] "2024-01-01" FsDir.nil)
        ([] ++ ["a"]) =
      Except.ok (some ⟨"My Post", "CI notes", "2023-11-01", ["body"],
        pathString ([] ++ ["a"])⟩) ∧
    readPost
        (FsDir.consFile "b.md"
          ["---", "title: Md Post", "date: 2024-05-05",
           "description: notes", "---"] "2024-01-01" FsDir.nil)
        ([] ++ ["b"]) =
      Except.ok (some ⟨"Md Post", "notes", "2024-05-05", [],
        pathString ([] ++ ["b"])⟩) :=
  ⟨(readPost_roundtrip
      (FsDir.consFile "a.mdx"
        ["---", "title: My Post", "date: 2023-11-01",
         "description: CI notes", "---", "body"] "2024-01-01" FsDir.nil)
      [] "a" "2024-01-01" "My Post" "2023-11-01" "CI notes" ["body"]
      ⟨by decide, by decide⟩ (by decide) ⟨by decide, by decide⟩ (by decide)).1
      rfl,
   (readPost_roundtrip
      (FsDir.consFile "b.md"
        ["---", "title: Md Post", "date: 2024-05-05",
         "description: notes", "---"] "2024-01-01" FsDir.nil)
      [] "b" "2024-01-01" "Md Post" "2024-05-05" "notes" []
      ⟨by decide, by decide⟩ (by decide) ⟨by decide, by decide⟩
      (by decide)).2.2.2.2.1 rfl rfl⟩

/-- Counterexample to C3 as stated: the post file `a.md` was written
with title `"Second"`, but loading its extensionless path `a` returns
the shadowing `a.mdx`'s title `"First"`. -/
theorem readPost_shadow_cx :
    readPost
        (FsDir.consFile "a.mdx" ["---", "title: First", "---"] "2024-01-01"
          (FsDir.consFile "a.md" ["---", "title: Second", "---"] "2024-01-01"
            FsDir.nil))
        ["a"] =
      Except.ok (some ⟨"First", "", "", [], "a"⟩) ∧
    (matter ["---", "title: Second", "---"]).1 = [("title", "Second")] ∧
    ("First" : String) ≠ "Second" :=
  ⟨rfl, rfl, by decide⟩

/-! ## Claim C2: completeness of `getAllPaths`

Reachability is stated through `resolve`, the model of path lookup: a
directory path is a nonempty segment list resolving to a directory; a
post-slug path is a slug under a directory holding a matching post file.
The well-formedness `goodDir` asks that sibling names are distinct (as
on a real filesystem) and that the produced slugs of each directory are
distinct — the amendment the duplicate counterexample forces. -/

/-- Names of the immediate children, in listing order. -/
def FsDir.names : FsDir → List String
  | .nil => []
  | .consFile n _ _ r => n :: r.names
  | .consDir n _ r => n :: r.names

/-- The routable slugs a directory level produces: subdirectory names
and post-file names with the extension stripped. -/
def FsDir.slugs : FsDir → List String
  | .nil => []
  | .consFile n _ _ r => (if postName n then [stripExt n] else []) ++ r.slugs
  | .consDir n _ r => n :: r.slugs

/-- Computable duplicate check. -/
def nodupB : List String → Bool
  | [] => true
  | x :: xs => !(xs.contains x) && nodupB xs

/-- Recursive well-formedness of all subdirectories. -/
def subGood : FsDir → Bool
  | .nil => true
  | .consFile _ _ _ r => subGood r
  | .consDir _ c r => ((nodupB c.names && nodupB c.slugs) && subGood c) && subGood r

/-- A content tree with distinct sibling names and distinct sibling
slugs, recursively. -/
def goodDir (d : FsDir) : Bool :=
  (nodupB d.names && nodupB d.slugs) && subGood d

/-- A directory path: nonempty and resolving to a directory. -/
def isDirPath (t : FsDir) (p : List String) : Prop :=
  p ≠ [] ∧ ∃ c, resolve p t = some (.dir c)

/-- A post-slug path: the extension-stripped path of a reachable post file. -/
def isPostPath (t : FsDir) (p : List String) : Prop :=
  ∃ q f l m, p = q ++ [stripExt f] ∧ postName f = true ∧
    resolve (q ++ [f]) t = some (.file l m)

theorem nodupB_iff {l : List String} : nodupB l = true ↔ l.Nodup := by
  induction l with
  | nil => simp [nodupB]
  | cons x xs ih =>
    simp only [nodupB, Bool.and_eq_true, Bool.not_eq_true', ih, List.nodup_cons]
    constructor
    · intro h
      obtain ⟨h1, h2⟩ := h
      refine ⟨fun hmem => ?_, h2⟩
      have hc : xs.contains x = true := List.elem_iff.mpr hmem
      rw [hc] at h1
      cases h1
    · intro h
      obtain ⟨h1, h2⟩ := h
      refine ⟨?_, h2⟩
      cases hc : xs.contains x
      · rfl
      · exact absurd (List.elem_iff.mp hc) h1

theorem goodDir_consFile_rest {n : String} {l : List String} {m : String}
    {r : FsDir} (h : goodDir (FsDir.consFile n l m r) = true) :
    goodDir r = true ∧ (postName n = true → stripExt n ∉ r.slugs) ∧
      n ∉ r.names := by
  have e1 : subGood (FsDir.consFile n l m r) = subGood r := rfl
  unfold goodDir at h ⊢
  rw [e1] at h
  simp only [FsDir.names, FsDir.slugs, Bool.and_eq_true, nodupB_iff,
    List.nodup_cons] at h
  obtain ⟨⟨⟨hn1, hn2⟩, hs⟩, hsub⟩ := h
  refine ⟨?_, ?_, hn1⟩
  · simp only [Bool.and_eq_true, nodupB_iff]
    by_cases hpn : postName n = true
    · rw [if_pos hpn] at hs
      rw [List.singleton_append, List.nodup_cons] at hs
      exact ⟨⟨hn2, hs.2⟩, hsub⟩
    · rw [if_neg hpn, List.nil_append] at hs
      exact ⟨⟨hn2, hs⟩, hsub⟩
  · intro hpn
    rw [if_pos hpn, List.singleton_append, List.nodup_cons] at hs
    exact hs.1

theorem goodDir_consDir_parts {n : String} {c r : FsDir}
    (h : goodDir (FsDir.consDir n c r) = true) :
    goodDir c = true ∧ goodDir r = true ∧ n ∉ r.names ∧ n ∉ r.slugs := by
  have e1 : subGood (FsDir.consDir n c r)
      = (((nodupB c.names && nodupB c.slugs) && subGood c) && subGood r) := rfl
  unfold goodDir at h ⊢
  rw [e1] at h
  simp only [FsDir.names, FsDir.slugs, Bool.and_eq_true, nodupB_iff,
    List.nodup_cons] at h
  obtain ⟨⟨⟨hn1, hn2⟩, ⟨hs1, hs2⟩⟩, ⟨⟨⟨hcn, hcs⟩, hcsub⟩, hrsub⟩⟩ := h
  refine ⟨?_, ?_, hn1, hs1⟩
  · simp only [Bool.and_eq_true, nodupB_iff]
    exact ⟨⟨hcn, hcs⟩, hcsub⟩
  · simp only [Bool.and_eq_true, nodupB_iff]
    exact ⟨⟨hn2, hs2⟩, hrsub⟩

theorem resolve_nil_cons {s : String} {rest : List String} :
    resolve (s :: rest) FsDir.nil = none := rfl

theorem resolve_consFile_ne {s : String} {rest : List String} {n : String}
    {l : List String} {m : String} {r : FsDir} (hne : s ≠ n) :
    resolve (s :: rest) (FsDir.consFile n l m r) = resolve (s :: rest) r := by
  have hf : (FsDir.consFile n l m r).find s = r.find s := by
    show (if n = s then some (FsNode.file l m) else r.find s) = r.find s
    rw [if_neg (fun h => hne h.symm)]
  simp only [resolve]
  rw [hf]

theorem resolve_consFile_eq {rest : List String} {n : String}
    {l : List String} {m : String} {r : FsDir} :
    resolve (n :: rest) (FsDir.consFile n l m r) =
      if rest.isEmpty then some (.file l m) else none := by
  have hf : (FsDir.consFile n l m r).find n = some (.file l m) := by
    show (if n = n then some (FsNode.file l m) else r.find n)
      = some (FsNode.file l m)
    rw [if_pos rfl]
  simp only [resolve]
  rw [hf]

theorem resolve_consDir_ne {s : String} {rest : List String} {n : String}
    {c r : FsDir} (hne : s ≠ n) :
    resolve (s :: rest) (FsDir.consDir n c r) = resolve (s :: rest) r := by
  have hf : (FsDir.consDir n c r).find s = r.find s := by
    show (if n = s then some (FsNode.dir c) else r.find s) = r.find s
    rw [if_neg (fun h => hne h.symm)]
  simp only [resolve]
  rw [hf]

theorem resolve_consDir_eq {rest : List String} {n : String} {c r : FsDir} :
    resolve (n :: rest) (FsDir.consDir n c r) = resolve rest c := by
  have hf : (FsDir.consDir n c r).find n = some (.dir c) := by
    show (if n = n then some (FsNode.dir c) else r.find n) = some (FsNode.dir c)
    rw [if_pos rfl]
  simp only [resolve]
  rw [hf]

theorem resolve_head_names {s : String} {rest : List String} {d : FsDir}
    {x : FsNode} (h : resolve (s :: rest) d = some x) : s ∈ d.names := by
  induction d with
  | nil => exact Option.noConfusion (resolve_nil_cons ▸ h)
  | consFile n l m r ih =>
    by_cases hs : s = n
    · subst hs
      exact List.mem_cons_self _ _
    · rw [resolve_consFile_ne hs] at h
      exact List.mem_cons_of_mem _ (ih h)
  | consDir n c r ihc ihr =>
    by_cases hs : s = n
    · subst hs
      exact List.mem_cons_self _ _
    · rw [resolve_consDir_ne hs] at h
      exact List.mem_cons_of_mem _ (ihr h)

/-- The walk at a starting prefix is the walk at the root, prefixed. -/
theorem walk_shift : ∀ (d : FsDir) (segs : List String),
    walkItems d segs = (walkItems d []).map (fun p => segs ++ p) := by
  intro d
  induction d with
  | nil => intro segs; rfl
  | consFile n l m r ih =>
    intro segs
    simp only [walkItems]
    rw [ih segs]
    by_cases hp : postName n = true
    · rw [if_pos hp, if_pos hp]
      simp
    · rw [if_neg hp, if_neg hp]
      simp
  | consDir n c r ihc ihr =>
    intro segs
    simp only [walkItems]
    rw [ihr segs, ihc (segs ++ [n]), ihc ([] ++ [n])]
    simp [List.map_map, Function.comp, List.append_assoc]

theorem walk_ne_nil : ∀ (d : FsDir) (p : List String),
    p ∈ walkItems d [] → p ≠ [] := by
  intro d
  induction d with
  | nil =>
    intro p hp
    simp [walkItems] at hp
  | consFile n l m r ih =>
    intro p hp
    simp only [walkItems] at hp
    rcases List.mem_append.mp hp with h | h
    · by_cases hpn : postName n = true
      · rw [if_pos hpn] at h
        simp only [List.nil_append, List.mem_singleton] at h
        subst h
        simp
      · rw [if_neg hpn] at h
        cases h
    · exact ih p h
  | consDir n c r ihc ihr =>
    intro p hp
    simp only [walkItems] at hp
    rcases List.mem_append.mp hp with h | h
    · rcases List.mem_cons.mp h with rfl | h
      · simp
      · rw [walk_shift c ([] ++ [n])] at h
        obtain ⟨p', _, rfl⟩ := List.mem_map.mp h
        simp
    · exact ihr p h

theorem walk_head_slugs : ∀ (d : FsDir) (p : List String),
    p ∈ walkItems d [] → ∃ y ∈ d.slugs, ∃ p', p = y :: p' := by
  intro d
  induction d with
  | nil =>
    intro p hp
    simp [walkItems] at hp
  | consFile n l m r ih =>
    intro p hp
    simp only [walkItems] at hp
    rcases List.mem_append.mp hp with h | h
    · by_cases hpn : postName n = true
      · rw [if_pos hpn] at h
        simp only [List.nil_append, List.mem_singleton] at h
        subst h
        refine ⟨stripExt n, ?_, [], rfl⟩
        simp [FsDir.slugs, hpn]
      · rw [if_neg hpn] at h
        cases h
    · obtain ⟨y, hy, p', rfl⟩ := ih p h
      exact ⟨y, by simp [FsDir.slugs, List.mem_append, Or.inr hy], p', rfl⟩
  | consDir n c r ihc ihr =>
    intro p hp
    simp only [walkItems] at hp
    rcases List.mem_append.mp hp with h | h
    · rcases List.mem_cons.mp h with rfl | h
      · exact ⟨n, List.mem_cons_self _ _, [], by simp⟩
      · rw [walk_shift c ([] ++ [n])] at h
        obtain ⟨p', _, rfl⟩ := List.mem_map.mp h
        exact ⟨n, List.mem_cons_self _ _, p', by simp⟩
    · obtain ⟨y, hy, p', rfl⟩ := ihr p h
      exact ⟨y, List.mem_cons_of_mem _ hy, p', rfl⟩

theorem walk_nodup : ∀ (d : FsDir), goodDir d = true → (walkItems d []).Nodup := by
  intro d
  induction d with
  | nil => intro _; exact List.Pairwise.nil
  | consFile n l m r ih =>
    intro hg
    obtain ⟨hgr, hslug, _⟩ := goodDir_consFile_rest hg
    simp only [walkItems]
    by_cases hpn : postName n = true
    · rw [if_pos hpn]
      simp only [List.nil_append, List.singleton_append, List.nodup_cons]
      refine ⟨fun hmem => ?_, ih hgr⟩
      obtain ⟨y, hy, p', heq⟩ := walk_head_slugs r _ hmem
      have : y = stripExt n := (List.cons.injEq _ _ _ _).mp heq.symm |>.1
      exact hslug hpn (this ▸ hy)
    · rw [if_neg hpn]
      simpa using ih hgr
  | consDir n c r ihc ihr =>
    intro hg
    obtain ⟨hgc, hgr, hname, hslug⟩ := goodDir_consDir_parts hg
    simp only [walkItems, List.nil_append]
    rw [walk_shift c [n], List.cons_append, List.nodup_cons]
    constructor
    · intro hmem
      rcases List.mem_append.mp hmem with h | h
      · obtain ⟨p', hp', heq⟩ := List.mem_map.mp h
        have hlen := congrArg List.length heq
        simp only [List.length_append, List.length_cons, List.length_nil] at hlen
        have : p' = [] := List.length_eq_zero.mp (by omega)
        exact walk_ne_nil c p' hp' this
      · obtain ⟨y, hy, p', heq⟩ := walk_head_slugs r _ h
        have : y = n := (List.cons.injEq _ _ _ _).mp heq.symm |>.1
        exact hslug (this ▸ hy)
    · rw [List.nodup_append]
      refine ⟨(ihc hgc).map ?_, ihr hgr, ?_⟩
      · intro p1 p2 hpe
        exact List.append_cancel_left hpe
      · intro p hp1 hp2
        obtain ⟨p', _, rfl⟩ := List.mem_map.mp hp1
        obtain ⟨y, hy, p'', heq⟩ := walk_head_slugs r _ hp2
        have : y = n := by
          rw [List.singleton_append] at heq
          exact ((List.cons.injEq _ _ _ _).mp heq.symm).1
        exact hslug (this ▸ hy)

/-- The walked paths are exactly the reachable directory paths and
post-slug paths. -/
theorem walk_mem_iff : ∀ (d : FsDir), goodDir d = true → ∀ p : List String,
    (p ∈ walkItems d [] ↔ isDirPath d p ∨ isPostPath d p) := by
  intro d
  induction d with
  | nil =>
    intro _ p
    constructor
    · intro hp
      simp [walkItems] at hp
    · intro hp
      rcases hp with ⟨hne, c, hres⟩ | ⟨q, f, l2, m2, hp2, hpost2, hres⟩
      · cases p with
        | nil => exact absurd rfl hne
        | cons s rest =>
          rw [resolve_nil_cons] at hres
          cases hres
      · cases q with
        | nil =>
          rw [List.nil_append, resolve_nil_cons] at hres
          cases hres
        | cons s q' =>
          rw [List.cons_append, resolve_nil_cons] at hres
          cases hres
  | consFile n l m r ih =>
    intro hg p
    obtain ⟨hgr, _, hname⟩ := goodDir_consFile_rest hg
    constructor
    · intro hp
      simp only [walkItems] at hp
      rcases List.mem_append.mp hp with h | h
      · by_cases hpn : postName n = true
        · rw [if_pos hpn] at h
          simp only [List.nil_append, List.mem_singleton] at h
          subst h
          right
          refine ⟨[], n, l, m, by simp, hpn, ?_⟩
          rw [List.nil_append, resolve_consFile_eq]
          rfl
        · rw [if_neg hpn] at h
          cases h
      · rcases (ih hgr p).mp h with hdir | hpost
        · left
          obtain ⟨hne, c, hres⟩ := hdir
          cases p with
          | nil => exact absurd rfl hne
          | cons s rest =>
            have hs : s ≠ n := fun he => hname (he ▸ resolve_head_names hres)
            exact ⟨hne, c, by rw [resolve_consFile_ne hs]; exact hres⟩
        · right
          obtain ⟨q, f, l2, m2, hp2, hpost2, hres⟩ := hpost
          refine ⟨q, f, l2, m2, hp2, hpost2, ?_⟩
          cases q with
          | nil =>
            rw [List.nil_append] at hres ⊢
            have hf : f ≠ n := fun he => hname (he ▸ resolve_head_names hres)
            rw [resolve_consFile_ne hf]
            exact hres
          | cons s q' =>
            rw [List.cons_append] at hres ⊢
            have hs : s ≠ n := fun he => hname (he ▸ resolve_head_names hres)
            rw [resolve_consFile_ne hs]
            exact hres
    · intro hreach
      simp only [walkItems]
      rcases hreach with ⟨hne, c, hres⟩ | ⟨q, f, l2, m2, hp2, hpost2, hres⟩
      · cases p with
        | nil => exact absurd rfl hne
        | cons s rest =>
          by_cases hs : s = n
          · subst hs
            rw [resolve_consFile_eq] at hres
            by_cases hrest : rest.isEmpty
            · rw [if_pos hrest] at hres
              simp at hres
            · rw [if_neg hrest] at hres
              cases hres
          · rw [resolve_consFile_ne hs] at hres
            exact List.mem_append_right _
              ((ih hgr _).mpr (Or.inl ⟨hne, c, hres⟩))
      · subst hp2
        cases q with
        | nil =>
          rw [List.nil_append] at hres
          by_cases hf : f = n
          · subst hf
            rw [if_pos hpost2]
            exact List.mem_append_left _ (by simp)
          · rw [resolve_consFile_ne hf] at hres
            exact List.mem_append_right _
              ((ih hgr _).mpr (Or.inr ⟨[], f, l2, m2, rfl, hpost2, by
                rw [List.nil_append]; exact hres⟩))
        | cons s q' =>
          rw [List.cons_append] at hres
          by_cases hs : s = n
          · subst hs
            rw [resolve_consFile_eq] at hres
            rw [if_neg (by simp)] at hres
            cases hres
          · rw [resolve_consFile_ne hs] at hres
            exact List.mem_append_right _
              ((ih hgr _).mpr (Or.inr ⟨s :: q', f, l2, m2, rfl, hpost2, by
                rw [List.cons_append]; exact hres⟩))
  | consDir n c r ihc ihr =>
    intro hg p
    obtain ⟨hgc, hgr, hname, _⟩ := goodDir_consDir_parts hg
    constructor
    · intro hp
      simp only [walkItems, List.nil_append] at hp
      rcases List.mem_append.mp hp with h | h
      · rcases List.mem_cons.mp h with rfl | h
        · left
          refine ⟨by simp, c, ?_⟩
          rw [resolve_consDir_eq]
          rfl
        · rw [walk_shift c [n]] at h
          obtain ⟨p', hp', rfl⟩ := List.mem_map.mp h
          rcases (ihc hgc p').mp hp' with hdir | hpost
          · left
            obtain ⟨hne, c', hres⟩ := hdir
            refine ⟨by simp, c', ?_⟩
            rw [List.singleton_append, resolve_consDir_eq]
            exact hres
          · right
            obtain ⟨q, f, l2, m2, rfl, hpost2, hres⟩ := hpost
            refine ⟨n :: q, f, l2, m2, by simp, hpost2, ?_⟩
            rw [List.cons_append, resolve_consDir_eq]
            exact hres
      · rcases (ihr hgr p).mp h with hdir | hpost
        · left
          obtain ⟨hne, c', hres⟩ := hdir
          cases p with
          | nil => exact absurd rfl hne
          | cons s rest =>
            have hs : s ≠ n := fun he => hname (he ▸ resolve_head_names hres)
            exact ⟨hne, c', by rw [resolve_consDir_ne hs]; exact hres⟩
        · right
          obtain ⟨q, f, l2, m2, hp2, hpost2, hres⟩ := hpost
          refine ⟨q, f, l2, m2, hp2, hpost2, ?_⟩
          cases q with
          | nil =>
            rw [List.nil_append] at hres ⊢
            have hf : f ≠ n := fun he => hname (he ▸ resolve_head_names hres)
            rw [resolve_consDir_ne hf]
            exact hres
          | cons s q' =>
            rw [List.cons_append] at hres ⊢
            have hs : s ≠ n := fun he => hname (he ▸ resolve_head_names hres)
            rw [resolve_consDir_ne hs]
            exact hres
    · intro hreach
      simp only [walkItems, List.nil_append]
      rcases hreach with ⟨hne, c', hres⟩ | ⟨q, f, l2, m2, hp2, hpost2, hres⟩
      · cases p with
        | nil => exact absurd rfl hne
        | cons s rest =>
          by_cases hs : s = n
          · subst hs
            rw [resolve_consDir_eq] at hres
            cases rest with
            | nil => exact List.mem_append_left _ (List.mem_cons_self _ _)
            | cons s2 rest2 =>
              have hm := (ihc hgc _).mpr (Or.inl ⟨by simp, c', hres⟩)
              refine List.mem_append_left _ (List.mem_cons_of_mem _ ?_)
              rw [walk_shift c [s]]
              exact List.mem_map.mpr ⟨s2 :: rest2, hm, rfl⟩
          · rw [resolve_consDir_ne hs] at hres
            exact List.mem_append_right _
              ((ihr hgr _).mpr (Or.inl ⟨hne, c', hres⟩))
      · subst hp2
        cases q with
        | nil =>
          rw [List.nil_append] at hres
          by_cases hf : f = n
          · subst hf
            rw [resolve_consDir_eq] at hres
            have : (some (FsNode.dir c) : Option FsNode)
                = some (.file l2 m2) := hres
            simp at this
          · rw [resolve_consDir_ne hf] at hres
            exact List.mem_append_right _
              ((ihr hgr _).mpr (Or.inr ⟨[], f, l2, m2, rfl, hpost2, by
                rw [List.nil_append]; exact hres⟩))
        | cons s q' =>
          rw [List.cons_append] at hres
          by_cases hs : s = n
          · subst hs
            rw [resolve_consDir_eq] at hres
            have hm := (ihc hgc _).mpr
              (Or.inr ⟨q', f, l2, m2, rfl, hpost2, hres⟩)
            refine List.mem_append_left _ (List.mem_cons_of_mem _ ?_)
            rw [walk_shift c [s]]
            exact List.mem_map.mpr ⟨q' ++ [stripExt f], hm, rfl⟩
          · rw [resolve_consDir_ne hs] at hres
            exact List.mem_append_right _
              ((ihr hgr _).mpr (Or.inr ⟨s :: q', f, l2, m2, rfl, hpost2, by
                rw [List.cons_append]; exact hres⟩))

/-- C2 (amended): on a content tree with distinct sibling names and
distinct sibling slugs, `getAllPaths` — the pre-order walk — contains no
duplicates, and a segment path appears in it exactly when it is a
reachable directory path or the slug path of a reachable post file:
exactly one entry per reachable directory and per reachable post, no
omissions.  Without the slug-distinctness hypothesis duplicates occur
(see the counterexample). -/
theorem getAllPaths_complete :
    ∀ t : FsDir, goodDir t = true →
      (getAllPaths t).Nodup ∧
      ∀ p : List String,
        (p ∈ getAllPaths t ↔ isDirPath t p ∨ isPostPath t p) :=
  fun t h => ⟨walk_nodup t h, fun p => walk_mem_iff t h p⟩

/-- Witness for C2 on a tree with one subdirectory (holding a post) and
one root post. -/
theorem getAllPaths_complete_witness :
    goodDir (FsDir.consDir "docs"
      (FsDir.consFile "p.mdx" [] "2024-01-01" FsDir.nil)
      (FsDir.consFile "about.md" [] "2024-02-02" FsDir.nil)) = true ∧
    ((getAllPaths (FsDir.consDir "docs"
        (FsDir.consFile "p.mdx" [] "2024-01-01" FsDir.nil)
        (FsDir.consFile "about.md" [] "2024-02-02" FsDir.nil))).Nodup ∧
      ∀ p : List String,
        (p ∈ getAllPaths (FsDir.consDir "docs"
            (FsDir.consFile "p.mdx" [] "2024-01-01" FsDir.nil)
            (FsDir.consFile "about.md" [] "2024-02-02" FsDir.nil)) ↔
          isDirPath (FsDir.consDir "docs"
            (FsDir.consFile "p.mdx" [] "2024-01-01" FsDir.nil)
            (FsDir.consFile "about.md" [] "2024-02-02" FsDir.nil)) p ∨
          isPostPath (FsDir.consDir "docs"
            (FsDir.consFile "p.mdx" [] "2024-01-01" FsDir.nil)
            (FsDir.consFile "about.md" [] "2024-02-02" FsDir.nil)) p)) :=
  ⟨by decide,
   getAllPaths_complete
     (FsDir.consDir "docs"
       (FsDir.consFile "p.mdx" [] "2024-01-01" FsDir.nil)
       (FsDir.consFile "about.md" [] "2024-02-02" FsDir.nil))
     (by decide)⟩

/-- Counterexample to C2 as stated: a directory holding both `a.mdx`
and `a.md` walks to the duplicated slug path `["a"]` — one entry per
post file, but not one per distinct path, and not duplicate-free. -/
theorem getAllPaths_duplicate_cx :
    getAllPaths (FsDir.consFile "a.mdx" [] "2024-01-01"
        (FsDir.consFile "a.md" [] "2024-01-01" FsDir.nil)) = [["a"], ["a"]] ∧
    ¬ (getAllPaths (FsDir.consFile "a.mdx" [] "2024-01-01"
        (FsDir.consFile "a.md" [] "2024-01-01" FsDir.nil))).Nodup :=
  ⟨rfl, by decide⟩

end Site
